import Mathlib

/-!
Verification of the changelog-generation script `scripts/build_changelog.py`
(repository `pktiuk/activitywatch`).

The script is shallowly embedded: Python strings are modelled as `List Char`
(`Str`), Python `str.split(sep)` for a one-character separator as `splitChar`,
`str.strip` / `str.rstrip` as `pyStrip` / `pyRStrip` (ASCII whitespace),
`"sep".join` as `List.intercalate`, and `sorted` as an insertion sort
(only its permutation property matters for the statements below).
External effects (git subprocess output, HTTP responses, the cache file)
are passed in as explicit parameters; Python exceptions are modelled with
`Option` / explicit outcome types.
-/

namespace Changelog

/-- Python strings, modelled as lists of characters. -/
abbrev Str := List Char

/-- Python `s.split(sep)` for a single-character separator `sep`:
splits at every occurrence; always returns at least one (possibly empty) chunk. -/
def splitChar (sep : Char) : Str → List Str
  | [] => [[]]
  | c :: rest =>
    if c = sep then [] :: splitChar sep rest
    else
      match splitChar sep rest with
      | [] => [[c]]
      | chunk :: more => (c :: chunk) :: more

/-- Python `needle in hay` substring containment, as a boolean scan. -/
def isSubstr (needle : Str) : Str → Bool
  | [] => needle = []
  | c :: rest => needle.isPrefixOf (c :: rest) || isSubstr needle rest

/-- ASCII whitespace as stripped by Python `str.strip()` (the script only ever
strips ASCII text). -/
def isPyWS (c : Char) : Bool :=
  c = ' ' ∨ c = '\t' ∨ c = '\n' ∨ c = '\r' ∨ c = '\x0b' ∨ c = '\x0c'

/-- Python `s.strip()`. -/
def pyStrip (s : Str) : Str :=
  ((s.dropWhile isPyWS).reverse.dropWhile isPyWS).reverse

/-- Python `s.rstrip()`. -/
def pyRStrip (s : Str) : Str :=
  (s.reverse.dropWhile isPyWS).reverse

/-- `\w` of Python `re`, restricted to ASCII (the script only classifies
ASCII conventional-commit prefixes). -/
def isWordChar (c : Char) : Bool := c.isAlphanum || c = '_'

/-- The decimal digits of a `Nat`, for f-string interpolation of counts. -/
def natToStr (n : Nat) : Str := (Nat.repr n).data

/-- `build_changelog.Commit` (dataclass: short hash, raw message, owning repo). -/
structure Commit where
  id : Str
  msg : Str
  repo : Str
deriving DecidableEq

/-- Matcher for the tail pattern `[!]?:` of the `parse_type` regex. -/
def matchBangColon : Str → Bool
  | [] => false
  | [c] => c = ':'
  | c :: d :: _ => c = ':' || (c = '!' && d = ':')

/-- One candidate split for the greedy group `(\((.+)\))?` of the `parse_type`
regex: after the opening `(`, position `i` of `r` is a valid end of the scope
when the scope `r.take i` is nonempty and newline-free (`.` does not match a
newline) and `r` continues with `)` followed by `[!]?:`. -/
def goodSplit (r : Str) (i : Nat) : Bool :=
  1 ≤ i &&
    (match r.drop i with
     | c :: rest => c = ')' && matchBangColon rest
     | [] => false) &&
    !((r.take i).contains '\n')

/-- The split chosen by the greedy `(.+)`: the largest valid end position. -/
def scopeSplitIdx (r : Str) : Option Nat :=
  ((List.range r.length).filter (goodSplit r)).getLast?

/-- The fixed allow-list of conventional-commit types. -/
def allowedTypes : List Str := ["build".data, "ci".data, "fix".data, "feat".data]

/-- The optional part `(\((.+)\))?[!]?:` of the `parse_type` regex, applied to
the rest of the message after group 1: when it opens with `(` and a greedy
scope split exists, the scope is captured; otherwise `[!]?:` must match
directly (after an unsplittable `(` this always fails, since `[!]?:` cannot
start with `(`).  Returns the optional group 3 on success. -/
def parse_groups : Str → Option (Option Str)
  | [] => if matchBangColon [] then some none else none
  | c :: r =>
    if c = '(' then
      match scopeSplitIdx r with
      | some i => some (some (r.take i))
      | none => if matchBangColon (c :: r) then some none else none
    else if matchBangColon (c :: r) then some none else none

/-- `Commit.parse_type`: match `^(\w+)(\((.+)\))?[!]?:` against the message and
return `(type, scope)` when the leading type token is in the allow-list
`["build", "ci", "fix", "feat"]`, and `none` otherwise.  The regex is compiled
by hand: group 1 is the maximal leading `\w+` run (shorter runs cannot lead to
a match because the following char must then be a word char, while the rest of
the pattern starts with `(`, `!` or `:`); the optional scope group backtracks
greedily, i.e. picks the largest valid end position. -/
def Commit.parse_type (c : Commit) : Option (Str × Option Str) :=
  if c.msg.takeWhile isWordChar = [] then none
  else
    match parse_groups (c.msg.dropWhile isWordChar) with
    | none => none
    | some sub =>
      if c.msg.takeWhile isWordChar ∈ allowedTypes then
        some (c.msg.takeWhile isWordChar, sub)
      else none

/-- `Commit.type`: the first component of `parse_type`, or `None`. -/
def Commit.type (c : Commit) : Option Str :=
  match c.parse_type with
  | some (t, _) => some t
  | none => none

/-- `Commit.subtype`: the second component of `parse_type`, or `None`. -/
def Commit.subtype (c : Commit) : Option Str :=
  match c.parse_type with
  | some (_, s) => s
  | none => none

/-- Character class `[\-\w\d]` of the first `msg_processed` substitution. -/
def isUrlWord (c : Char) : Bool := isWordChar c || c = '-'

/-- `Option.isPrefixOf`-style helper: strip a literal prefix. -/
def dropLit (pre s : Str) : Option Str :=
  if pre.isPrefixOf s then some (s.drop pre.length) else none

/-- The alternation `(issues|pulls)` of the first `msg_processed` pattern,
tried in regex order, each alternative bracketed by the surrounding `/`. -/
def dropAlt (r : Str) : Option Str :=
  match dropLit "/issues/".data r with
  | some r3 => some r3
  | none => dropLit "/pulls/".data r

/-- Attempt, at the current position, the first `msg_processed` pattern
`[^(-]https://github.com/ActivityWatch/([\-\w\d]+)/(issues|pulls)/(\d+)`
with replacement `[#\3](https://github.com/ActivityWatch/\1/issues/\3)`.
Returns the replacement text and the rest of the input after the match
(the leading `[^(-]` character is part of the match and is swallowed,
exactly as in the Python code). -/
def tryMatch1 (s : Str) : Option (Str × Str) :=
  match s with
  | [] => none
  | c :: rest =>
    if c = '(' || c = '-' then none
    else
      match dropLit "https://github.com/ActivityWatch/".data rest with
      | none => none
      | some r1 =>
        if r1.takeWhile isUrlWord = [] then none
        else
          match dropAlt (r1.dropWhile isUrlWord) with
          | none => none
          | some r3 =>
            if r3.takeWhile Char.isDigit = [] then none
            else
              some ("[#".data ++ r3.takeWhile Char.isDigit ++
                      "](https://github.com/ActivityWatch/".data ++ r1.takeWhile isUrlWord ++
                      "/issues/".data ++ r3.takeWhile Char.isDigit ++ ")".data,
                    r3.dropWhile Char.isDigit)

/-- Attempt, at the current position, the second `msg_processed` pattern
`#(\d+)` with replacement
`[#\1](https://github.com/ActivityWatch/{repo}/issues/\1)`. -/
def tryMatch2 (repo : Str) : Str → Option (Str × Str)
  | '#' :: rest =>
    if rest.takeWhile Char.isDigit = [] then none
    else
      some ("[#".data ++ rest.takeWhile Char.isDigit ++
              "](https://github.com/ActivityWatch/".data ++ repo ++
              "/issues/".data ++ rest.takeWhile Char.isDigit ++ ")".data,
            rest.dropWhile Char.isDigit)
  | _ => none

/-- Lower-case hexadecimal digit, class `[0-9a-f]`. -/
def isHexLower (c : Char) : Bool := c.isDigit || ('a' ≤ c && c ≤ 'f')

/-- In a Python `re.sub` replacement string, `\0` is the octal escape for the
NUL character (it is not a group reference), so the third substitution of
`msg_processed` inserts `\x00` where the commit hash was presumably meant. -/
def nulChar : Char := Char.ofNat 0

/-- Attempt, at the current position, the third `msg_processed` pattern
`[\s\(][0-9a-f]{7}[\s\)]` with replacement
``[`\0`](https://github.com/ActivityWatch/{repo}/issues/\0)``
(both bracketing characters are part of the match and are swallowed). -/
def tryMatch3 (repo : Str) (s : Str) : Option (Str × Str) :=
  match s with
  | [] => none
  | c :: rest =>
    if isPyWS c || c = '(' then
      if (rest.take 7).length = 7 && (rest.take 7).all isHexLower then
        match rest.drop 7 with
        | [] => none
        | d :: rem =>
          if isPyWS d || d = ')' then
            some ("[`".data ++ [nulChar] ++ "`](https://github.com/ActivityWatch/".data ++
                    repo ++ "/issues/".data ++ [nulChar] ++ ")".data,
                  rem)
          else none
      else none
    else none

/-- Left-to-right, non-overlapping `re.sub` scan: at each position try the
matcher; on a match emit the replacement and continue after the match,
otherwise copy one character.  `fuel` only bounds the recursion and is always
called with at least the length of the input, so it never truncates a scan
(every match consumes at least one character). -/
def subScan (try1 : Str → Option (Str × Str)) : Nat → Str → Str
  | 0, s => s
  | _, [] => []
  | fuel + 1, c :: rest =>
    match try1 (c :: rest) with
    | some (rep, rem) => rep ++ subScan try1 fuel rem
    | none => c :: subScan try1 fuel rest

/-- `Commit.msg_processed`: the three `re.sub` calls, in source order. -/
def Commit.msg_processed (c : Commit) : Str :=
  let s := subScan tryMatch1 c.msg.length c.msg
  let s := subScan (tryMatch2 c.repo) s.length s
  subScan (tryMatch3 c.repo) s.length s

/-- `commit_linkify`. -/
def commit_linkify (commitid repo : Str) : Str :=
  "[`".data ++ commitid ++ "`](https://github.com/ActivityWatch/".data ++ repo ++
    "/commit/".data ++ commitid ++ ")".data

/-- `Commit.format`: processed message plus a commit link when the id is
non-empty (Python truthiness of the strings). -/
def Commit.format (c : Commit) : Str :=
  let commit_link := if c.id ≠ [] then commit_linkify c.id c.repo else []
  c.msg_processed ++ (if commit_link ≠ [] then " (".data ++ commit_link ++ ")".data else [])

/-- `wrap_details`: wrap the body in a `<details>` element if it has more than
`wraplines` newline characters. -/
def wrap_details (title body : Str) (wraplines : Nat) : Str :=
  let out := "\n\n### ".data ++ title
  let out :=
    if body.count '\n' > wraplines then
      out ++ "\n<details><summary>Click to expand</summary>".data
    else out
  let out := out ++ "\n<p>\n\n".data ++ pyRStrip body ++ "\n\n</p>\n".data
  if body.count '\n' > wraplines then out ++ "</details>".data else out

/-- Python `commit.type not in filter_types` where `commit.type` may be `None`
(`None` is never an element of a list of strings). -/
def typeNotInFilter (t : Option Str) (filter_types : List Str) : Bool :=
  match t with
  | none => true
  | some s => !(filter_types.contains s)

/-- One git-log line `%h\t%an\t%ae\t%s`, unpacked into exactly four fields;
`none` models the `ValueError` raised by the tuple unpacking otherwise. -/
def parseLogLine (line : Str) : Option (Str × Str × Str × Str) :=
  match splitChar '\t' line with
  | [i, a, e, m] => some (i, a, e, m)
  | _ => none

/-- State of the bucketing loop of `summary_repo`: the three accumulated
bucket strings and the collected contributor emails (the global
`contributor_emails` set, threaded explicitly). -/
structure Buckets where
  feats : Str
  fixes : Str
  misc : Str
  emails : List Str
deriving DecidableEq

/-- The commit-bucketing loop of `summary_repo`: for every non-empty git-log
line, record the author email and append `"\n - " ++ commit.format()` to the
bucket selected by the commit type (`feat` / `fix` / everything whose type is
not in `filter_types`).  Fails (`none`, modelling the uncaught `ValueError`)
on a non-empty line without exactly four tab-separated fields. -/
def bucketLines (dirname : Str) (filter_types : List Str) :
    List Str → Buckets → Option Buckets
  | [], st => some st
  | line :: rest, st =>
    if line = [] then bucketLines dirname filter_types rest st
    else
      match parseLogLine line with
      | none => none
      | some (i, _a, e, msg) =>
        let commit : Commit := ⟨i, msg, dirname⟩
        let entry := "\n - ".data ++ commit.format
        let st' :=
          if commit.type = some "feat".data then { st with feats := st.feats ++ entry }
          else if commit.type = some "fix".data then { st with fixes := st.fixes ++ entry }
          else if typeNotInFilter commit.type filter_types then
            { st with misc := st.misc ++ entry }
          else st
        bucketLines dirname filter_types rest { st' with emails := st.emails ++ [e] }

/-- One iteration of the section-rendering loop of `summary_repo`: skip empty
buckets, count the entries as `len(entries.strip().split("\n"))`, put the
count in the title, and route `Fixes` / `Misc` (by substring test on the
section name) through `wrap_details` while emitting `Features` directly. -/
def render_section (acc : Str) (name entries : Str) : Str :=
  if entries = [] then acc
  else
    let count := (splitChar '\n' (pyStrip entries)).length
    let title := name ++ " (".data ++ natToStr count ++ ")".data
    if isSubstr "Misc".data name || isSubstr "Fixes".data name then
      acc ++ wrap_details title entries 5
    else
      acc ++ "\n\n### ".data ++ title ++ entries

/-- The full section-rendering loop over the three buckets, in source order. -/
def render_sections (feats fixes misc : Str) : Str :=
  render_section
    (render_section
      (render_section [] "✨ Features".data feats)
      "🐛 Fixes".data fixes)
    "🔨 Misc".data misc

/-- Result of `summary_repo`: the markdown section and the contributor emails
accumulated into the global set. -/
structure RepoSummary where
  out : Str
  emails : List Str
deriving DecidableEq

/-- `summary_repo` for a repository without submodules, with the output of the
external `git log --pretty=format:'%h%x09%an%x09%ae%x09%s'` call passed in as
`bundle` and the `basename $(pwd)` result as `dirname`.  (For a repository
without submodules the `git submodule summary` output is empty, so the
recursive part of the Python function appends nothing; the commit-range
special cases only alter the git invocation, which is external here.) -/
def summary_repo (dirname bundle : Str) (filter_types : List Str) :
    Option RepoSummary :=
  match bucketLines dirname filter_types (splitChar '\n' bundle) ⟨[], [], [], []⟩ with
  | none => none
  | some st =>
    some ⟨"\n## 📦 ".data ++ dirname ++ render_sections st.feats st.fixes st.misc,
          st.emails⟩

/-- The outcome of one remote `requests.get(...).raise_for_status()` call in
`_resolve_email`: a successful JSON payload (its `total_count` and the login of
`items[0]`), an `HTTPError` with a status code, or any other
`RequestException` (connection error, timeout, ...). -/
inductive HttpResult where
  | ok (total_count : Nat) (first_login : Str)
  | httpError (status : Nat)
  | requestError
deriving DecidableEq

/-- State of the `while resp is None` retry loop of `_resolve_email` after the
provided responses have been consumed. -/
inductive LoopOutcome where
  | success (total_count : Nat) (first_login : Str)
  | gaveUp
  | raised
  | outOfResponses
deriving DecidableEq

/-- The `while resp is None` retry loop of `_resolve_email`, driven by the
list of outcomes of the successive remote calls.  Before each request the loop
breaks when `backoff >= max_backoff`; a 403 `HTTPError` increments `backoff`
and continues; any other `HTTPError` falls through both inner `if`s (the
`else: raise e` is attached to the `isinstance` check), leaving `resp = None`
and `backoff` unchanged, so the loop just retries; a non-`HTTPError`
`RequestException` is re-raised.  `outOfResponses` means the loop was still
running (about to issue another request) when the supplied responses ran out. -/
def resolveLoop (backoff max_backoff : Nat) : List HttpResult → LoopOutcome
  | [] => if backoff ≥ max_backoff then .gaveUp else .outOfResponses
  | r :: rest =>
    if backoff ≥ max_backoff then .gaveUp
    else
      match r with
      | .ok tc login => .success tc login
      | .httpError status =>
        if status = 403 then resolveLoop (backoff + 1) max_backoff rest
        else resolveLoop backoff max_backoff rest
      | .requestError => .raised

/-- Overall outcome of `_resolve_email`: a returned value, a propagated
exception, or a still-running retry loop (which consumed every supplied
response without terminating). -/
inductive ResolveOutcome where
  | returns (username : Option Str)
  | raised
  | stillRunning
deriving DecidableEq

/-- `_resolve_email`: for a no-reply address, derive the username from the
local part (`split("@")[0]`, then `split("+")[1]` when a `+` is present);
otherwise run the retry loop (with the hardcoded `max_backoff = 2`) and, on a
response, return `items[0].login` when `total_count >= 1` and `None` when
`total_count == 0`; after giving up, return `None`. -/
def _resolve_email (email : Str) (responses : List HttpResult) : ResolveOutcome :=
  if isSubstr "users.noreply.github.com".data email then
    let username := (splitChar '@' email).headI
    let username :=
      if username.contains '+' then ((splitChar '+' username).drop 1).headI
      else username
    .returns (some username)
  else
    match resolveLoop 0 2 responses with
    | .success tc login => .returns (if tc ≥ 1 then some login else none)
    | .gaveUp => .returns none
    | .raised => .raised
    | .outOfResponses => .stillRunning

/-- The loop body of `remove_duplicates`, with the index `i` and the two
accumulators `out` and `longest` threaded explicitly. -/
def rdLoop (minlen : Nat) (only_sections : Bool) :
    List Str → Nat → List Str → List Str → List Str
  | [], _, out, _ => out
  | x :: rest, i, out, longest =>
    if i = 0 ∨ x ∉ out then
      rdLoop minlen only_sections rest (i + 1)
        ((if longest.length < minlen then out ++ longest else out) ++ [x]) []
    else
      if only_sections then
        if longest = [] ∧ "#".data.isPrefixOf x then
          rdLoop minlen only_sections rest (i + 1) out (longest ++ [x])
        else
          rdLoop minlen only_sections rest (i + 1) (out ++ [x]) longest
      else
        rdLoop minlen only_sections rest (i + 1) out (longest ++ [x])

/-- `remove_duplicates` (the commented-out-as-broken duplicate-run remover):
returns the input unchanged when it has fewer than `minlen` lines, otherwise
runs the accumulator loop; note that the final `longest` run is discarded when
the loop ends. -/
def remove_duplicates (s : List Str) (minlen : Nat) (only_sections : Bool) :
    List Str :=
  if s.length < minlen then s
  else rdLoop minlen only_sections s 0 [] []

/-- Python `<=` on strings: lexicographic comparison by code point. -/
def strLeB : Str → Str → Bool
  | [], _ => true
  | _ :: _, [] => false
  | a :: as, b :: bs =>
    if a.val < b.val then true
    else if b.val < a.val then false
    else strLeB as bs

/-- Insertion step of the sort modelling Python `sorted`. -/
def insertLe (le : α → α → Bool) (a : α) : List α → List α
  | [] => [a]
  | b :: l => if le a b then a :: b :: l else b :: insertLe le a l

/-- Insertion sort modelling Python `sorted` (only the fact that the result is
a permutation of the input is used by the statements below). -/
def sortLe (le : α → α → Bool) : List α → List α
  | [] => []
  | a :: l => insertLe le a (sortLe le l)

/-- The in-memory `usernames: Dict[str, set]` of `get_all_contributors`:
an insertion-ordered association list from username to its list of known
emails (each list has set semantics: `addEmail` never inserts a duplicate). -/
abbrev UMap := List (Str × List Str)

/-- `usernames[username].add(email)` on the `defaultdict(set)`. -/
def addEmail : UMap → Str → Str → UMap
  | [], u, e => [(u, [e])]
  | (u', es) :: rest, u, e =>
    if u' = u then (u', if e ∈ es then es else es ++ [e]) :: rest
    else (u', es) :: addEmail rest u e

/-- Does the mapping contain the (username, email) pair? -/
def hasPair (m : UMap) (u e : Str) : Bool :=
  m.any (fun p => p.1 = u && p.2.contains e)

/-- Does the mapping contain the username as a key? -/
def hasKey (m : UMap) (u : Str) : Bool :=
  m.any (fun p => p.1 = u)

/-- The reverse table `email_to_username` built by the dict comprehension at
the end of `get_all_contributors`: iterating the mapping in order, a later
username owning the same email overwrites an earlier one, so the lookup
returns the last entry whose email set contains the email. -/
def emailToUsername (m : UMap) (e : Str) : Option Str :=
  ((m.filter (fun p => p.2.contains e)).getLast?).map (fun p => p.1)

/-- Is the email already present in some entry (`resolved_emails`)? -/
def emailResolved (m : UMap) (e : Str) : Bool :=
  m.any (fun p => p.2.contains e)

/-- Python `sep.join(xs)`. -/
def pyJoin (sep : Str) : List Str → Str
  | [] => []
  | [x] => x
  | x :: xs => x ++ sep ++ pyJoin sep xs

/-- One line of the cache file as written:
`f"{username}\t{chr(9).join(sorted(email_set))}"`. -/
def entryLine (u : Str) (es : List Str) : Str :=
  u ++ '\t' :: pyJoin ['\t'] (sortLe strLeB es)

/-- The full cache file as written by `get_all_contributors`: one line plus a
trailing newline per entry, entries sorted by username
(`sorted(usernames.items())` compares the username first and usernames are
unique dict keys). -/
def serializeCache (m : UMap) : Str :=
  ((sortLe (fun p q => strLeB p.1 q.1) m).map
    (fun p => entryLine p.1 p.2 ++ ['\n'])).flatten

/-- The (username, email) pairs contributed by one line of the cache file:
empty lines are skipped, otherwise `username, *emails = line.split("\t")`. -/
def linePairs (line : Str) : List (Str × Str) :=
  if line = [] then []
  else
    match splitChar '\t' line with
    | [] => []
    | u :: es => es.map (fun e => (u, e))

/-- All (username, email) pairs read from a cache file, in reading order. -/
def parsedPairs (s : Str) : List (Str × Str) :=
  ((splitChar '\n' s).map linePairs).flatten

/-- The cache-reading loop of `get_all_contributors`, folded over the parsed
pairs. -/
def readCache (init : UMap) (s : Str) : UMap :=
  (parsedPairs s).foldl (fun m p => addEmail m p.1 p.2) init

/-- The hardcoded seed entries of `get_all_contributors`, in source order. -/
def seedMap : UMap :=
  [("erikbjare".data, ["erik.bjareholt@gmail.com".data, "erik@bjareho.lt".data]),
   ("iloveitaly".data, ["iloveitaly@gmail.com".data]),
   ("kewde".data, ["kewde@particl.io".data]),
   ("victorwinberg".data, ["victor.m.winberg@gmail.com".data]),
   ("NicoWeio".data, ["nico.weio@gmail.com".data])]

/-- The resolution loop: for each not-yet-resolved email, query
`_resolve_email` (modelled by the pure `resolve` parameter, the username it
returns for a given email, if any) and record the mapping. -/
def resolveLoopEmails (resolve : Str → Option Str) (m : UMap) : List Str → UMap
  | [] => m
  | e :: rest =>
    match resolve e with
    | some u => resolveLoopEmails resolve (addEmail m u e) rest
    | none => resolveLoopEmails resolve m rest

/-- Result of `get_all_contributors`: the final in-memory mapping, the cache
file content written back, and the returned contributor set. -/
structure ContribResult where
  finalMap : UMap
  written : Str
  returned : List Str

/-- `get_all_contributors`: seed the mapping, merge the persisted cache file
(`none` models a missing file), resolve the contributor emails that are not
already covered, rewrite the cache file in full, and return the set of
usernames reached from the encountered `contributor_emails` through the
rebuilt email-to-username table.  The traversal's email set and the remote
resolver are explicit parameters. -/
def get_all_contributors (file : Option Str) (contributor_emails : List Str)
    (resolve : Str → Option Str) : ContribResult :=
  let m1 := match file with
    | none => seedMap
    | some s => readCache seedMap s
  let unresolved := contributor_emails.filter (fun e => !(emailResolved m1 e))
  let m2 := resolveLoopEmails resolve m1 unresolved
  { finalMap := m2
    written := serializeCache m2
    returned := (contributor_emails.filterMap (fun e => emailToUsername m2 e)).dedup }

/-- One formatted bucket entry, `"\n - " ++ tail`. -/
def entryOf (t : Str) : Str := "\n - ".data ++ t

/-- A bucket string accumulated by `summary_repo`: the concatenation of one
entry per bucketed commit, each with a newline-free tail.  The tail list
witnesses the number of entries. -/
def EntriesShape (b : Str) (ts : List Str) : Prop :=
  (∀ t ∈ ts, '\n' ∉ t) ∧ b = (ts.map entryOf).flatten

/-- A section title with its entry count, `f"{name} ({count})"`. -/
def titleOf (name : Str) (count : Nat) : Str :=
  name ++ " (".data ++ natToStr count ++ ")".data

/-- The block contributed by one non-empty bucket in the rendering loop. -/
def sectionBlock (name entries : Str) : Str :=
  if isSubstr "Misc".data name || isSubstr "Fixes".data name then
    wrap_details (titleOf name (splitChar '\n' (pyStrip entries)).length) entries 5
  else
    "\n\n### ".data ++ titleOf name (splitChar '\n' (pyStrip entries)).length ++ entries

/-- Modelled from the spec (claim C9), for comparison with `_resolve_email`:
"derive the username directly from the address's local part, stripping any
numeric-id prefix before a `+`" — the local part, with a leading digit run
followed by `+` removed when present. -/
def spec_noreply_username (email : Str) : Str :=
  let localPart := (splitChar '@' email).headI
  let digits := localPart.takeWhile Char.isDigit
  match localPart.drop digits.length with
  | '+' :: rest => rest
  | _ => localPart

/-- Propositional form of `hasPair`: some entry carries the pair. -/
def PairMem (m : UMap) (u e : Str) : Prop := ∃ es, (u, es) ∈ m ∧ e ∈ es

/-- Well-behavedness of a subject string for the greedy scope regex: no later
position in it starts a `)` followed by a `[!]?:` match before a newline.  Used
as the hypothesis under which the scope group of `parse_type` stops exactly at
the first `)`: Python's greedy `(.+)` group otherwise backtracks to the *last*
viable close position. -/
def noLateCloseB : Str → Bool
  | [] => true
  | c :: rest =>
    if c = '\n' then true
    else if c = ')' then !(matchBangColon rest) && noLateCloseB rest
    else noLateCloseB rest

/-!
## Claim theorems

Each claim of the specification is settled below; auxiliary lemmas come first,
the claims' theorems are marked with their identifiers.
-/

/-- The C1 scenario input: a git-log bundle in the
`%h\t%an\t%ae\t%s` format produced by the `git log` invocation. -/
def c1bundle : Str :=
  ("aaaaaaa\tA\ta@x\tfeat: add X\n" ++
   "bbbbbbb\tB\tb@x\tfix: bug Y\n" ++
   "ccccccc\tC\tc@x\tchore: cleanup").data

/-- The C4 counterexample input: a git log of seven `feat:` commits (with the
default filter set of `build`). -/
def c4bundle : Str :=
  ("aaaaaa1\tA\ta@x\tfeat: a1\n" ++
   "aaaaaa2\tA\ta@x\tfeat: a2\n" ++
   "aaaaaa3\tA\ta@x\tfeat: a3\n" ++
   "aaaaaa4\tA\ta@x\tfeat: a4\n" ++
   "aaaaaa5\tA\ta@x\tfeat: a5\n" ++
   "aaaaaa6\tA\ta@x\tfeat: a6\n" ++
   "aaaaaa7\tA\ta@x\tfeat: a7").data

set_option maxRecDepth 20000 in
/-- C1, counterexample: in the scenario of the claim (commit messages
`feat: add X`, `fix: bug Y`, `chore: cleanup`, filter set `{"chore"}`) the
output does contain a Misc section: `chore` is not in the parse allow-list, so
the commit's type is `None`, and `None not in {"chore"}` puts it in the
miscellaneous bucket — contradicting the claimed "no Misc section". -/
theorem C1_counterexample :
    ((summary_repo "awtest".data c1bundle ["chore".data]).map
      (fun r => isSubstr "### 🔨 Misc".data r.out)) = some true := by
  decide

set_option maxRecDepth 40000 in
/-- C1, amended: the scenario produces a Features section with exactly 1 entry
and a Fixes section with exactly 1 entry, but also a Misc section with exactly
1 entry holding the `chore` commit: a type outside the allow-list
`{build, ci, fix, feat}` is unclassified (`None`), and only classified types
can be filtered, so `{"chore"}` does not suppress the commit. -/
theorem C1_amended :
    ((summary_repo "awtest".data c1bundle ["chore".data]).map
      (fun r =>
        isSubstr "### ✨ Features (1)".data r.out &&
        isSubstr " - feat: add X".data r.out &&
        isSubstr "### 🐛 Fixes (1)".data r.out &&
        isSubstr " - fix: bug Y".data r.out &&
        isSubstr "### 🔨 Misc (1)".data r.out &&
        isSubstr " - chore: cleanup".data r.out)) = some true := by
  decide

/-- C6: with the hardcoded `max_backoff = 2`, a rate-limited resolution
sequence gives up after two 403 retries — the third response is never even
requested — and returns no username, without raising. -/
theorem C6_rate_limit_gives_up :
    _resolve_email "someone@example.com".data
        [.httpError 403, .httpError 403, .httpError 403] = .returns none ∧
      _resolve_email "someone@example.com".data [.httpError 403, .httpError 403] =
        .returns none := by
  decide

/-- The retry loop never terminates on persistent non-403 errors: the backoff
counter is not incremented and nothing is raised, so after consuming any
number of non-403 error responses the loop is still running. -/
theorem resolveLoop_non403_spins (n : Nat) :
    ∀ b, b < 2 →
      resolveLoop b 2 (List.replicate n (.httpError 500)) = .outOfResponses := by
  induction n with
  | zero =>
    intro b hb
    simp only [List.replicate, resolveLoop]
    rw [if_neg (by omega)]
  | succ n ih =>
    intro b hb
    simp only [List.replicate, resolveLoop]
    rw [if_neg (by omega)]
    simpa using ih b hb

/-- C2: a remote lookup failing with an HTTP error other than 403 is not
re-raised: the `else: raise e` is attached to the `isinstance` test, so a
non-403 `HTTPError` falls through with `resp` still `None` and `backoff`
unchanged, and the loop retries forever (first conjunct: after any number `n`
of 500-responses the resolver is still running, neither returning nor
raising).  Only a non-HTTP `RequestException` is re-raised (second
conjunct). -/
theorem C2_code_bug (n : Nat) :
    _resolve_email "someone@example.com".data (List.replicate n (.httpError 500)) =
        .stillRunning ∧
      _resolve_email "someone@example.com".data [.requestError] = .raised := by
  constructor
  · unfold _resolve_email
    rw [if_neg (by decide)]
    rw [resolveLoop_non403_spins n 0 (by omega)]
  · decide

/-- Loop invariant for `remove_duplicates`: the result of the loop draws its
elements, with multiplicity, from the two accumulators and the remaining
items. -/
theorem rdLoop_subperm (minlen : Nat) (os : Bool) :
    ∀ (items : List Str) (i : Nat) (out longest : List Str),
      (rdLoop minlen os items i out longest).Subperm (out ++ longest ++ items) := by
  intro items
  induction items with
  | nil =>
    intro i out longest
    simp only [rdLoop, List.append_nil]
    exact (List.sublist_append_left out longest).subperm
  | cons x rest ih =>
    intro i out longest
    simp only [rdLoop]
    split
    · -- new line: flush `longest` (or drop it when long) and append x
      refine (ih (i + 1) _ []).trans ?_
      split
      · -- longest is short: kept
        simp only [List.append_nil, List.append_assoc, List.singleton_append]
        exact List.Subperm.refl _
      · -- longest is long: dropped
        simp only [List.append_nil, List.append_assoc, List.singleton_append]
        exact (List.Sublist.append_left
          (List.sublist_append_right longest (x :: rest)) out).subperm
    · split
      · split
        · -- matched a section line: grows `longest`
          refine (ih (i + 1) out (longest ++ [x])).trans ?_
          simp only [List.append_nil, List.append_assoc, List.singleton_append]
          exact List.Subperm.refl _
        · -- matched, not a section line: appended to out at the flush point
          refine (ih (i + 1) (out ++ [x]) longest).trans (List.Perm.subperm ?_)
          simp only [List.append_assoc, List.singleton_append]
          exact List.Perm.append_left out List.perm_middle.symm
      · -- only_sections = false: grows `longest`
        refine (ih (i + 1) out (longest ++ [x])).trans ?_
        simp only [List.append_nil, List.append_assoc, List.singleton_append]
        exact List.Subperm.refl _

/-- C3, counterexample: on the input `["#a", "b", "#a"]` with `minlen = 2`
(and the default `only_sections = True`) no repeated run of length at least 2
exists — the only repetition is the single line `"#a"` — yet the output is
`["#a", "b"]`: the trailing occurrence, collected into `longest`, is discarded
when the loop ends, so a line outside any run of length `minlen` is not
kept. -/
theorem C3_counterexample :
    remove_duplicates ["#a".data, "b".data, "#a".data] 2 true ≠
      ["#a".data, "b".data, "#a".data] := by
  decide

/-- C3, amended: `remove_duplicates` returns a sub-multiset of its input —
lines can be dropped (in particular a trailing repeated run is discarded even
when shorter than `minlen`) and a kept repeated run is re-emitted at its flush
position, so only multiplicities, not relative order, are guaranteed — and for
any input with fewer than `minlen` lines the output is the input, unchanged. -/
theorem C3_amended (s : List Str) (minlen : Nat) (only_sections : Bool) :
    (remove_duplicates s minlen only_sections).Subperm s ∧
      (s.length < minlen → remove_duplicates s minlen only_sections = s) := by
  constructor
  · unfold remove_duplicates
    split
    · exact List.Subperm.refl s
    · simpa using rdLoop_subperm minlen only_sections s 0 [] []
  · intro h
    unfold remove_duplicates
    rw [if_pos h]

/-- C3, witness: the 1-line input with `minlen = 10` is returned untouched. -/
theorem C3_amended_witness :
    (remove_duplicates ["x".data] 10 true).Subperm ["x".data] ∧
      remove_duplicates ["x".data] 10 true = ["x".data] :=
  ⟨(C3_amended ["x".data] 10 true).1, (C3_amended ["x".data] 10 true).2 (by decide)⟩

/-- `splitChar` always returns at least one chunk. -/
theorem splitChar_ne_nil (sep : Char) (s : Str) : splitChar sep s ≠ [] := by
  induction s with
  | nil => simp [splitChar]
  | cons c rest ih =>
    simp only [splitChar]
    split
    · simp
    · split <;> simp

/-- Splitting distributes over an explicit occurrence of the separator. -/
theorem splitChar_append_cons (sep : Char) (xs ys : Str) :
    splitChar sep (xs ++ sep :: ys) = splitChar sep xs ++ splitChar sep ys := by
  induction xs with
  | nil => simp [splitChar]
  | cons x xs ih =>
    by_cases hx : x = sep
    · subst hx
      simp [splitChar, ih]
    · obtain ⟨a, l, hal⟩ : ∃ a l, splitChar sep xs = a :: l := by
        cases h : splitChar sep xs with
        | nil => exact absurd h (splitChar_ne_nil sep xs)
        | cons a l => exact ⟨a, l, rfl⟩
      simp [splitChar, hx, ih, hal]

/-- A separator-free string is a single chunk. -/
theorem splitChar_of_not_mem (sep : Char) (xs : Str) (h : sep ∉ xs) :
    splitChar sep xs = [xs] := by
  induction xs with
  | nil => simp [splitChar]
  | cons x xs ih =>
    have hx : ¬x = sep := fun hxs => h (hxs ▸ List.mem_cons_self x xs)
    have hxs : sep ∉ xs := fun hs => h (List.mem_cons_of_mem x hs)
    simp [splitChar, hx, ih hxs]

/-- Chunks never contain the separator. -/
theorem not_mem_of_mem_splitChar (sep : Char) (s : Str) :
    ∀ l ∈ splitChar sep s, sep ∉ l := by
  induction s with
  | nil =>
    intro l hl
    simp [splitChar] at hl
    simp [hl]
  | cons c rest ih =>
    intro l hl
    simp only [splitChar] at hl
    by_cases hc : c = sep
    · rw [if_pos hc] at hl
      rcases List.mem_cons.mp hl with h | h
      · simp [h]
      · exact ih l h
    · rw [if_neg hc] at hl
      obtain ⟨a, m, ham⟩ : ∃ a m, splitChar sep rest = a :: m := by
        cases h : splitChar sep rest with
        | nil => exact absurd h (splitChar_ne_nil sep rest)
        | cons a m => exact ⟨a, m, rfl⟩
      rw [ham] at hl
      rcases List.mem_cons.mp hl with h | h
      · subst h
        intro hmem
        rcases List.mem_cons.mp hmem with h' | h'
        · exact hc h'.symm
        · exact ih a (ham ▸ List.mem_cons_self a m) h'
      · exact ih l (ham ▸ List.mem_cons_of_mem a h)

/-- Every character of a chunk occurs in the split string. -/
theorem mem_of_mem_splitChar (sep : Char) (s : Str) :
    ∀ l ∈ splitChar sep s, ∀ x ∈ l, x ∈ s := by
  induction s with
  | nil =>
    intro l hl
    simp [splitChar] at hl
    simp [hl]
  | cons c rest ih =>
    intro l hl x hx
    simp only [splitChar] at hl
    by_cases hc : c = sep
    · rw [if_pos hc] at hl
      rcases List.mem_cons.mp hl with h | h
      · simp [h] at hx
      · exact List.mem_cons_of_mem c (ih l h x hx)
    · rw [if_neg hc] at hl
      obtain ⟨a, m, ham⟩ : ∃ a m, splitChar sep rest = a :: m := by
        cases h : splitChar sep rest with
        | nil => exact absurd h (splitChar_ne_nil sep rest)
        | cons a m => exact ⟨a, m, rfl⟩
      rw [ham] at hl
      rcases List.mem_cons.mp hl with h | h
      · subst h
        rcases List.mem_cons.mp hx with h' | h'
        · simp [h']
        · exact List.mem_cons_of_mem c (ih a (ham ▸ List.mem_cons_self a m) x h')
      · exact List.mem_cons_of_mem c (ih l (ham ▸ List.mem_cons_of_mem a h) x hx)

/-- Splitting a separator-joined list of separator-free chunks recovers the
chunks. -/
theorem splitChar_pyJoin (sep : Char) (chunks : List Str) (hne : chunks ≠ [])
    (hc : ∀ l ∈ chunks, sep ∉ l) :
    splitChar sep (pyJoin [sep] chunks) = chunks := by
  induction chunks with
  | nil => exact absurd rfl hne
  | cons c cs ih =>
    cases cs with
    | nil =>
      simp only [pyJoin]
      exact splitChar_of_not_mem sep c (hc c (List.mem_cons_self c []))
    | cons c' cs' =>
      have : pyJoin [sep] (c :: c' :: cs') = c ++ sep :: pyJoin [sep] (c' :: cs') := by
        simp [pyJoin]
      rw [this, splitChar_append_cons,
          splitChar_of_not_mem sep c (hc c (List.mem_cons_self c _)),
          ih (by simp) (fun l hl => hc l (List.mem_cons_of_mem c hl))]
      simp

/-- `insertLe` only reorders: the result is a permutation of consing. -/
theorem insertLe_perm (le : α → α → Bool) (a : α) (l : List α) :
    (insertLe le a l).Perm (a :: l) := by
  induction l with
  | nil => simp [insertLe]
  | cons b l ih =>
    simp only [insertLe]
    split
    · exact List.Perm.refl _
    · exact (ih.cons b).trans (List.Perm.swap a b l)

/-- The model of Python `sorted` permutes its input. -/
theorem sortLe_perm (le : α → α → Bool) (l : List α) : (sortLe le l).Perm l := by
  induction l with
  | nil => simp [sortLe]
  | cons a l ih => exact (insertLe_perm le a (sortLe le l)).trans (ih.cons a)

/-- Unfolding of `hasPair` into an existential over entries. -/
theorem hasPair_iff (m : UMap) (u e : Str) :
    hasPair m u e = true ↔ PairMem m u e := by
  simp only [hasPair, List.any_eq_true, Bool.and_eq_true, decide_eq_true_eq,
    List.elem_iff, PairMem]
  constructor
  · rintro ⟨⟨u', es⟩, hm, h1, h2⟩
    simp only at h1 h2
    exact ⟨es, h1 ▸ hm, h2⟩
  · rintro ⟨es, hm, he⟩
    exact ⟨(u, es), hm, rfl, he⟩

/-- Unfolding of `hasKey` into an existential over entries. -/
theorem hasKey_iff (m : UMap) (u : Str) :
    hasKey m u = true ↔ ∃ es, (u, es) ∈ m := by
  simp only [hasKey, List.any_eq_true, decide_eq_true_eq]
  constructor
  · rintro ⟨⟨u', es⟩, hm, h1⟩
    simp only at h1
    exact ⟨es, h1 ▸ hm⟩
  · rintro ⟨es, hm⟩
    exact ⟨(u, es), hm, rfl⟩

/-- A pair survives any further `addEmail`. -/
theorem pairMem_addEmail_mono (m : UMap) (u e u' e' : Str)
    (h : PairMem m u e) : PairMem (addEmail m u' e') u e := by
  induction m with
  | nil => rcases h with ⟨es, hm, _⟩; simp at hm
  | cons p rest ih =>
    obtain ⟨u₀, es₀⟩ := p
    rcases h with ⟨es, hm, he⟩
    simp only [addEmail]
    rcases List.mem_cons.mp hm with hh | ht
    · have h1 : u = u₀ := congrArg Prod.fst hh
      have h2 : es = es₀ := congrArg Prod.snd hh
      split
      · refine ⟨_, List.mem_cons.mpr (Or.inl (by rw [h1])), ?_⟩
        split
        · exact h2 ▸ he
        · exact List.mem_append_left _ (h2 ▸ he)
      · exact ⟨es, List.mem_cons.mpr (Or.inl hh), he⟩
    · split
      · exact ⟨es, List.mem_cons_of_mem _ ht, he⟩
      · rcases ih ⟨es, ht, he⟩ with ⟨es', hm', he'⟩
        exact ⟨es', List.mem_cons_of_mem _ hm', he'⟩

/-- `addEmail` records its pair. -/
theorem pairMem_addEmail_self (m : UMap) (u e : Str) :
    PairMem (addEmail m u e) u e := by
  induction m with
  | nil => exact ⟨[e], by simp [addEmail], List.mem_cons_self e []⟩
  | cons p rest ih =>
    obtain ⟨u₀, es₀⟩ := p
    simp only [addEmail]
    split
    · next hu =>
      refine ⟨_, List.mem_cons.mpr (Or.inl (by rw [hu])), ?_⟩
      split
      · assumption
      · exact List.mem_append_right _ (List.mem_cons_self e [])
    · rcases ih with ⟨es', hm', he'⟩
      exact ⟨es', List.mem_cons_of_mem _ hm', he'⟩

/-- A pair found after `addEmail` was already present or is the added one. -/
theorem pairMem_addEmail_inv (m : UMap) (u e u' e' : Str)
    (h : PairMem (addEmail m u' e') u e) :
    PairMem m u e ∨ (u' = u ∧ e' = e) := by
  induction m with
  | nil =>
    rcases h with ⟨es, hm, he⟩
    simp only [addEmail, List.mem_singleton] at hm
    have h1 : u = u' := congrArg Prod.fst hm
    have h2 : es = [e'] := congrArg Prod.snd hm
    right
    rw [h2] at he
    exact ⟨h1.symm, (List.mem_singleton.mp he).symm⟩
  | cons p rest ih =>
    obtain ⟨u₀, es₀⟩ := p
    by_cases hu : u₀ = u'
    · rcases h with ⟨es, hm, he⟩
      rw [show addEmail ((u₀, es₀) :: rest) u' e' =
            (u₀, if e' ∈ es₀ then es₀ else es₀ ++ [e']) :: rest by
          simp [addEmail, hu]] at hm
      rcases List.mem_cons.mp hm with hh | ht
      · have h1 : u = u₀ := congrArg Prod.fst hh
        have h2 : es = (if e' ∈ es₀ then es₀ else es₀ ++ [e']) := congrArg Prod.snd hh
        rw [h2] at he
        by_cases hee : e' ∈ es₀
        · rw [if_pos hee] at he
          exact Or.inl ⟨es₀, List.mem_cons.mpr (Or.inl (by rw [h1])), he⟩
        · rw [if_neg hee] at he
          rcases List.mem_append.mp he with h' | h'
          · exact Or.inl ⟨es₀, List.mem_cons.mpr (Or.inl (by rw [h1])), h'⟩
          · exact Or.inr ⟨hu.symm.trans h1.symm, (List.mem_singleton.mp h').symm⟩
      · exact Or.inl ⟨es, List.mem_cons_of_mem _ ht, he⟩
    · rcases h with ⟨es, hm, he⟩
      rw [show addEmail ((u₀, es₀) :: rest) u' e' =
            (u₀, es₀) :: addEmail rest u' e' by simp [addEmail, hu]] at hm
      rcases List.mem_cons.mp hm with hh | ht
      · exact Or.inl ⟨es, List.mem_cons.mpr (Or.inl hh), he⟩
      · rcases ih ⟨es, ht, he⟩ with h' | h'
        · rcases h' with ⟨es', hm', he'⟩
          exact Or.inl ⟨es', List.mem_cons_of_mem _ hm', he'⟩
        · exact Or.inr h'

/-- Folding `addEmail` over a pair list preserves existing pairs. -/
theorem pairMem_foldl_mono (ps : List (Str × Str)) (init : UMap) (u e : Str)
    (h : PairMem init u e) :
    PairMem (ps.foldl (fun m p => addEmail m p.1 p.2) init) u e := by
  induction ps generalizing init with
  | nil => simpa using h
  | cons p rest ih =>
    exact ih _ (pairMem_addEmail_mono _ _ _ _ _ h)

/-- Every folded pair is present after the fold. -/
theorem pairMem_foldl_of_mem (ps : List (Str × Str)) (init : UMap) (u e : Str)
    (h : (u, e) ∈ ps) :
    PairMem (ps.foldl (fun m p => addEmail m p.1 p.2) init) u e := by
  induction ps generalizing init with
  | nil => simp at h
  | cons p rest ih =>
    rcases List.mem_cons.mp h with hh | ht
    · simp only [List.foldl_cons]
      exact pairMem_foldl_mono rest _ u e (hh ▸ pairMem_addEmail_self init u e)
    · exact ih _ ht

/-- A pair present after the fold was initially present or was folded in. -/
theorem pairMem_foldl_inv (ps : List (Str × Str)) (init : UMap) (u e : Str)
    (h : PairMem (ps.foldl (fun m p => addEmail m p.1 p.2) init) u e) :
    PairMem init u e ∨ (u, e) ∈ ps := by
  induction ps generalizing init with
  | nil => exact Or.inl (by simpa using h)
  | cons p rest ih =>
    rcases ih _ h with h' | h'
    · rcases pairMem_addEmail_inv init u e p.1 p.2 h' with h'' | h''
      · exact Or.inl h''
      · right
        rcases h'' with ⟨h1, h2⟩
        have : p = (u, e) := Prod.ext h1 h2
        exact this ▸ List.mem_cons_self p rest
    · exact Or.inr (List.mem_cons_of_mem p h')

/-- The resolution loop preserves existing pairs. -/
theorem pairMem_resolveLoop_mono (resolve : Str → Option Str) (es : List Str)
    (m : UMap) (u e : Str) (h : PairMem m u e) :
    PairMem (resolveLoopEmails resolve m es) u e := by
  induction es generalizing m with
  | nil => simpa [resolveLoopEmails] using h
  | cons e' rest ih =>
    simp only [resolveLoopEmails]
    cases hr : resolve e' with
    | none => exact ih _ h
    | some u'' => exact ih _ (pairMem_addEmail_mono _ _ _ _ _ h)

/-- A pair present after the resolution loop was already present, or its email
is one of the processed emails. -/
theorem pairMem_resolveLoop_inv (resolve : Str → Option Str) (es : List Str)
    (m : UMap) (u e : Str)
    (h : PairMem (resolveLoopEmails resolve m es) u e) :
    PairMem m u e ∨ e ∈ es := by
  induction es generalizing m with
  | nil => exact Or.inl (by simpa [resolveLoopEmails] using h)
  | cons e' rest ih =>
    simp only [resolveLoopEmails] at h
    cases hr : resolve e' with
    | none =>
      rw [hr] at h
      rcases ih _ h with h' | h'
      · exact Or.inl h'
      · exact Or.inr (List.mem_cons_of_mem e' h')
    | some u'' =>
      rw [hr] at h
      rcases ih _ h with h' | h'
      · rcases pairMem_addEmail_inv m u e u'' e' h' with h'' | h''
        · exact Or.inl h''
        · exact Or.inr (h''.2 ▸ List.mem_cons_self e' rest)
      · exact Or.inr (List.mem_cons_of_mem e' h')

/-- Usernames and emails read from a cache file are tab- and newline-free:
they are fields of a tab-split of a newline-split line. -/
theorem parsedPairs_clean (s : Str) (u e : Str) (h : (u, e) ∈ parsedPairs s) :
    '\n' ∉ u ∧ '\t' ∉ u ∧ '\n' ∉ e ∧ '\t' ∉ e := by
  simp only [parsedPairs, List.mem_flatten, List.mem_map] at h
  obtain ⟨pairs, ⟨line, hline, hpairs⟩, hmem⟩ := h
  rw [← hpairs] at hmem
  have hnl : '\n' ∉ line := not_mem_of_mem_splitChar '\n' s line hline
  unfold linePairs at hmem
  by_cases hl : line = []
  · simp [hl] at hmem
  · rw [if_neg hl] at hmem
    cases hsp : splitChar '\t' line with
    | nil => exact absurd hsp (splitChar_ne_nil '\t' line)
    | cons u' es =>
      rw [hsp] at hmem
      rcases List.mem_map.mp hmem with ⟨x, hx, hxe⟩
      have h1 : u' = u := congrArg Prod.fst hxe
      have h2 : x = e := congrArg Prod.snd hxe
      have humem : u ∈ splitChar '\t' line := by
        rw [hsp, ← h1]; exact List.mem_cons_self u' es
      have hemem : e ∈ splitChar '\t' line := by
        rw [hsp]; exact List.mem_cons_of_mem u' (h2 ▸ hx)
      refine ⟨?_, not_mem_of_mem_splitChar '\t' line u humem, ?_,
        not_mem_of_mem_splitChar '\t' line e hemem⟩
      · exact fun hc => hnl (mem_of_mem_splitChar '\t' line u humem '\n' hc)
      · exact fun hc => hnl (mem_of_mem_splitChar '\t' line e hemem '\n' hc)

/-- Characters of a join come from the separator or the chunks. -/
theorem mem_pyJoin (sep : Str) (chunks : List Str) (x : Char)
    (h : x ∈ pyJoin sep chunks) : x ∈ sep ∨ ∃ l ∈ chunks, x ∈ l := by
  induction chunks with
  | nil => simp [pyJoin] at h
  | cons c cs ih =>
    cases cs with
    | nil =>
      right
      exact ⟨c, List.mem_cons_self c [], by simpa [pyJoin] using h⟩
    | cons c' cs' =>
      rw [show pyJoin sep (c :: c' :: cs') = c ++ sep ++ pyJoin sep (c' :: cs') from by
        simp [pyJoin]] at h
      rcases List.mem_append.mp h with h' | h'
      · rcases List.mem_append.mp h' with h'' | h''
        · exact Or.inr ⟨c, List.mem_cons_self c _, h''⟩
        · exact Or.inl h''
      · rcases ih h' with h'' | ⟨l, hl, hx⟩
        · exact Or.inl h''
        · exact Or.inr ⟨l, List.mem_cons_of_mem c hl, hx⟩

/-- A cache line for a newline-free username and newline-free emails is
newline-free. -/
theorem entryLine_no_newline (u : Str) (es : List Str) (hu : '\n' ∉ u)
    (hes : ∀ x ∈ es, '\n' ∉ x) : '\n' ∉ entryLine u es := by
  intro h
  unfold entryLine at h
  rcases List.mem_append.mp h with h' | h'
  · exact hu h'
  · rcases List.mem_cons.mp h' with h'' | h''
    · exact absurd h'' (by decide)
    · rcases mem_pyJoin _ _ _ h'' with h3 | ⟨l, hl, hx⟩
      · exact absurd h3 (by decide)
      · exact hes l ((sortLe_perm strLeB es).mem_iff.mp hl) hx

/-- Splitting off one serialized line from a concatenation. -/
theorem parsedPairs_append_cons (A B : Str) :
    parsedPairs (A ++ '\n' :: B) =
      ((splitChar '\n' A).map linePairs).flatten ++ parsedPairs B := by
  unfold parsedPairs
  rw [splitChar_append_cons, List.map_append, List.flatten_append]

/-- A clean pair of an entry list appears among the parsed pairs of its
serialization. -/
theorem pairMem_lines_mem (u e : Str) :
    ∀ (L : UMap) (es : List Str), (u, es) ∈ L → e ∈ es → '\t' ∉ u → '\n' ∉ u →
      (∀ e' ∈ es, '\t' ∉ e' ∧ '\n' ∉ e') →
      (u, e) ∈ parsedPairs ((L.map (fun p => entryLine p.1 p.2 ++ ['\n'])).flatten) := by
  intro L
  induction L with
  | nil => intro es hm; simp at hm
  | cons p rest ih =>
    intro es hm he hu_t hu_n hes
    rw [show ((p :: rest).map (fun p => entryLine p.1 p.2 ++ ['\n'])).flatten =
          entryLine p.1 p.2 ++ '\n' :: (rest.map (fun p => entryLine p.1 p.2 ++ ['\n'])).flatten from by
        simp]
    rw [parsedPairs_append_cons]
    rcases List.mem_cons.mp hm with hh | ht
    · have hp : p = (u, es) := hh.symm
      subst hp
      apply List.mem_append_left
      have hA : '\n' ∉ entryLine u es :=
        entryLine_no_newline u es hu_n (fun x hx => (hes x hx).2)
      rw [splitChar_of_not_mem '\n' _ hA]
      have hsort_ne : sortLe strLeB es ≠ [] := by
        intro h0
        have := (sortLe_perm strLeB es).length_eq
        rw [h0] at this
        rcases es with _ | ⟨a, es'⟩
        · simp at he
        · simp at this
      have hsort_clean : ∀ l ∈ sortLe strLeB es, '\t' ∉ l :=
        fun l hl => (hes l ((sortLe_perm strLeB es).mem_iff.mp hl)).1
      have hline : splitChar '\t' (entryLine u es) = u :: sortLe strLeB es := by
        unfold entryLine
        rw [splitChar_append_cons, splitChar_of_not_mem '\t' u hu_t,
            splitChar_pyJoin '\t' _ hsort_ne hsort_clean]
        simp
      have hA_ne : entryLine u es ≠ [] := by
        unfold entryLine
        rcases u with _ | ⟨c, u'⟩ <;> simp
      simp only [List.map_cons, List.map_nil, List.flatten,
        List.append_nil]
      unfold linePairs
      rw [if_neg hA_ne, hline]
      have : e ∈ sortLe strLeB es := (sortLe_perm strLeB es).mem_iff.mpr he
      simpa using List.mem_map_of_mem (fun x => (u, x)) this
    · exact List.mem_append_right _ (ih es ht he hu_t hu_n hes)

/-- Any clean pair of the mapping appears in the written cache file. -/
theorem pairMem_serialize (m : UMap) (u e : Str)
    (h : PairMem m u e) (hu_t : '\t' ∉ u) (hu_n : '\n' ∉ u)
    (hclean : ∀ e', PairMem m u e' → '\t' ∉ e' ∧ '\n' ∉ e') :
    (u, e) ∈ parsedPairs (serializeCache m) := by
  rcases h with ⟨es, hm, he⟩
  have hmL : (u, es) ∈ sortLe (fun p q => strLeB p.1 q.1) m :=
    (sortLe_perm _ m).mem_iff.mpr hm
  exact pairMem_lines_mem u e _ es hmL he hu_t hu_n
    (fun e' he' => hclean e' ⟨es, hm, he'⟩)

/-- The hardcoded seed emails contain no tab or newline. -/
theorem seedMap_clean (u e : Str) (h : PairMem seedMap u e) :
    '\t' ∉ e ∧ '\n' ∉ e := by
  rcases h with ⟨es, hm, he⟩
  have hall : ∀ p ∈ seedMap, ∀ x ∈ p.2, '\t' ∉ x ∧ '\n' ∉ x := by decide
  exact hall (u, es) hm e he

/-- Unfolding of the final mapping computed by `get_all_contributors`. -/
theorem gac_finalMap (file : Str) (emails : List Str) (resolve : Str → Option Str) :
    (get_all_contributors (some file) emails resolve).finalMap =
      resolveLoopEmails resolve (readCache seedMap file)
        (emails.filter (fun e => !(emailResolved (readCache seedMap file) e))) := rfl

/-- The written cache file is the serialization of the final mapping. -/
theorem gac_written (file : Str) (emails : List Str) (resolve : Str → Option Str) :
    (get_all_contributors (some file) emails resolve).written =
      serializeCache (get_all_contributors (some file) emails resolve).finalMap := rfl

/-- Unfolding of the contributor set returned by `get_all_contributors`. -/
theorem gac_returned (file : Str) (emails : List Str) (resolve : Str → Option Str) :
    (get_all_contributors (some file) emails resolve).returned =
      (emails.filterMap
        (fun e => emailToUsername (get_all_contributors (some file) emails resolve).finalMap e)).dedup :=
  rfl

/-- C7: the contributor table grows monotonically: every (username, email)
pair read from the persisted cache at the start of `get_all_contributors` is
still present in the final mapping (first conjunct) and in the cache file
written back at the end (second conjunct); entries are only appended or
merged, never removed.  The `contributor_emails` collected by the traversal
are tab- and newline-free — they are fields of tab-split git-log lines (see
`summary_repo_emails_clean`) — which the second conjunct needs so that the
serialized line of `u` cannot be corrupted by a resolved email. -/
theorem C7_cache_monotone (file : Str) (emails : List Str)
    (resolve : Str → Option Str) (u e : Str)
    (hmem : (u, e) ∈ parsedPairs file)
    (hclean : ∀ x ∈ emails, '\t' ∉ x ∧ '\n' ∉ x) :
    hasPair (get_all_contributors (some file) emails resolve).finalMap u e = true ∧
      (u, e) ∈ parsedPairs (get_all_contributors (some file) emails resolve).written := by
  have hm1 : PairMem (readCache seedMap file) u e :=
    pairMem_foldl_of_mem _ _ _ _ hmem
  have hfin : PairMem (get_all_contributors (some file) emails resolve).finalMap u e := by
    rw [gac_finalMap]
    exact pairMem_resolveLoop_mono _ _ _ _ _ hm1
  obtain ⟨hnu, htu, _hne, _hte⟩ := parsedPairs_clean file u e hmem
  refine ⟨(hasPair_iff _ _ _).mpr hfin, ?_⟩
  rw [gac_written]
  apply pairMem_serialize _ _ _ hfin htu hnu
  intro e' h'
  rw [gac_finalMap] at h'
  rcases pairMem_resolveLoop_inv _ _ _ _ _ h' with h'' | h''
  · rcases pairMem_foldl_inv _ _ _ _ h'' with h3 | h3
    · exact seedMap_clean u e' h3
    · obtain ⟨_, _, hn3, ht3⟩ := parsedPairs_clean file u e' h3
      exact ⟨ht3, hn3⟩
  · exact hclean e' (List.mem_of_mem_filter h'')

/-- C7, witness: a one-entry cache file, no encountered emails. -/
theorem C7_cache_monotone_witness :
    hasPair (get_all_contributors (some "alice\ta@x.com\n".data) [] (fun _ => none)).finalMap
        "alice".data "a@x.com".data = true ∧
      ("alice".data, "a@x.com".data) ∈
        parsedPairs (get_all_contributors (some "alice\ta@x.com\n".data) [] (fun _ => none)).written :=
  C7_cache_monotone "alice\ta@x.com\n".data [] (fun _ => none) "alice".data "a@x.com".data
    (by decide) (by simp)

/-- Sorting a non-empty list yields a non-empty list. -/
theorem sortLe_ne_nil (le : α → α → Bool) (l : List α) (h : l ≠ []) :
    sortLe le l ≠ [] := by
  intro h0
  have hlen := (sortLe_perm le l).length_eq
  rw [h0] at hlen
  rcases l with _ | ⟨a, l'⟩
  · exact h rfl
  · simp at hlen

/-- A cache line is never empty. -/
theorem entryLine_ne_nil (u : Str) (es : List Str) : entryLine u es ≠ [] := by
  unfold entryLine
  rcases u with _ | ⟨c, u'⟩ <;> simp

/-- Tab-splitting a cache line recovers the username and the sorted emails. -/
theorem entryLine_split (u : Str) (es : List Str) (hu_t : '\t' ∉ u)
    (hne : es ≠ []) (hes : ∀ x ∈ es, '\t' ∉ x) :
    splitChar '\t' (entryLine u es) = u :: sortLe strLeB es := by
  unfold entryLine
  rw [splitChar_append_cons, splitChar_of_not_mem '\t' u hu_t,
      splitChar_pyJoin '\t' _ (sortLe_ne_nil strLeB es hne)
        (fun l hl => hes l ((sortLe_perm strLeB es).mem_iff.mp hl))]
  simp

/-- C8, counterexample: the round-trip claim fails for a username containing a
tab.  Writing the single entry `("a\tb", {"e"})` produces the line
`a\tb\te`, which re-reads as the entry `("a", {"b", "e"})`: the pair is not
reproduced (first conjunct), the whole re-read mapping having shifted
(second conjunct). -/
theorem C8_counterexample :
    hasPair (readCache [] (serializeCache [("a\tb".data, ["e".data])]))
        "a\tb".data "e".data = false ∧
      readCache [] (serializeCache [("a\tb".data, ["e".data])]) =
        [("a".data, ["b".data, "e".data])] := by
  decide

/-- C8, amended: the cache round-trip reproduces the email set of an entry
provided the username, too, is free of tabs and newlines (the claim only
constrained the emails): for every such username and non-empty list of clean
emails, a membership test after writing and re-reading agrees with membership
in the original email set. -/
theorem C8_amended (u : Str) (es : List Str)
    (hu_t : '\t' ∉ u) (hu_n : '\n' ∉ u) (hne : es ≠ [])
    (hes : ∀ x ∈ es, '\t' ∉ x ∧ '\n' ∉ x) (e : Str) :
    (hasPair (readCache [] (serializeCache [(u, es)])) u e = true ↔ e ∈ es) := by
  have hser : serializeCache [(u, es)] = entryLine u es ++ ['\n'] := by
    simp [serializeCache, sortLe, insertLe]
  have hA : '\n' ∉ entryLine u es :=
    entryLine_no_newline u es hu_n (fun x hx => (hes x hx).2)
  have hparse : parsedPairs (serializeCache [(u, es)]) =
      (sortLe strLeB es).map (fun x => (u, x)) := by
    rw [hser, show entryLine u es ++ ['\n'] = entryLine u es ++ '\n' :: [] from rfl,
        parsedPairs_append_cons, splitChar_of_not_mem '\n' _ hA]
    simp only [List.map_cons, List.map_nil, List.flatten, List.append_nil]
    unfold linePairs
    rw [if_neg (entryLine_ne_nil u es),
        entryLine_split u es hu_t hne (fun x hx => (hes x hx).1)]
    simp [parsedPairs, splitChar, linePairs]
  constructor
  · intro h
    rcases pairMem_foldl_inv _ [] u e ((hasPair_iff _ _ _).mp h) with h' | h'
    · rcases h' with ⟨es', hm', _⟩
      simp at hm'
    · rw [hparse] at h'
      rcases List.mem_map.mp h' with ⟨x, hx, hxe⟩
      have h2 : x = e := congrArg Prod.snd hxe
      exact (sortLe_perm strLeB es).mem_iff.mp (h2 ▸ hx)
  · intro h
    apply (hasPair_iff _ _ _).mpr
    apply pairMem_foldl_of_mem
    rw [hparse]
    exact List.mem_map_of_mem _ ((sortLe_perm strLeB es).mem_iff.mpr h)

/-- C8, witness: the claim's example mapping round-trips. -/
theorem C8_amended_witness :
    hasPair (readCache []
        (serializeCache [("alice".data, ["a@x.com".data, "a2@x.com".data])]))
      "alice".data "a@x.com".data = true :=
  (C8_amended "alice".data ["a@x.com".data, "a2@x.com".data] (by decide) (by decide)
    (by decide) (by decide) "a@x.com".data).mpr (by decide)

/-- A hit in the reverse email table corresponds to an entry carrying the
email. -/
theorem emailToUsername_pairMem (m : UMap) (e u : Str)
    (h : emailToUsername m e = some u) : PairMem m u e := by
  unfold emailToUsername at h
  cases hg : (m.filter (fun p => p.2.contains e)).getLast? with
  | none => rw [hg] at h; simp at h
  | some p =>
    rw [hg] at h
    simp only [Option.map_some', Option.some.injEq] at h
    have hpmem := List.mem_of_mem_getLast? hg
    have hsplit := List.mem_filter.mp hpmem
    refine ⟨p.2, ?_, ?_⟩
    · exact (Prod.ext h rfl : p = (u, p.2)) ▸ hsplit.1
    · have := hsplit.2
      simpa [List.elem_iff] using this

/-- C10: `get_all_contributors` returns exactly the image of the encountered
`contributor_emails` under the rebuilt email-to-username table (first
conjunct); a username present in the persisted cache none of whose final
emails was encountered in this run is still a key of the mapping that is
serialized to the cache file, but is excluded from the returned set (second
and third conjuncts). -/
theorem C10_returned_set (file : Str) (emails : List Str)
    (resolve : Str → Option Str) (u : Str)
    (hcache : ∃ e₀, (u, e₀) ∈ parsedPairs file)
    (hnone : ∀ e,
      hasPair (get_all_contributors (some file) emails resolve).finalMap u e = true →
        e ∉ emails) :
    (∀ u', u' ∈ (get_all_contributors (some file) emails resolve).returned ↔
        ∃ e ∈ emails,
          emailToUsername (get_all_contributors (some file) emails resolve).finalMap e =
            some u') ∧
      hasKey (get_all_contributors (some file) emails resolve).finalMap u = true ∧
      u ∉ (get_all_contributors (some file) emails resolve).returned := by
  have hiff : ∀ u', u' ∈ (get_all_contributors (some file) emails resolve).returned ↔
      ∃ e ∈ emails,
        emailToUsername (get_all_contributors (some file) emails resolve).finalMap e =
          some u' := by
    intro u'
    rw [gac_returned, List.mem_dedup, List.mem_filterMap]
  refine ⟨hiff, ?_, ?_⟩
  · obtain ⟨e₀, he₀⟩ := hcache
    have hfin : PairMem (get_all_contributors (some file) emails resolve).finalMap u e₀ := by
      rw [gac_finalMap]
      exact pairMem_resolveLoop_mono _ _ _ _ _ (pairMem_foldl_of_mem _ _ _ _ he₀)
    rcases hfin with ⟨es, hm, _⟩
    exact (hasKey_iff _ _).mpr ⟨es, hm⟩
  · intro hmem
    rcases (hiff u).mp hmem with ⟨e, he, hf⟩
    have hp : hasPair (get_all_contributors (some file) emails resolve).finalMap u e = true :=
      (hasPair_iff _ _ _).mpr (emailToUsername_pairMem _ e u hf)
    exact hnone e hp he

/-- C10, witness: a cached-but-unseen contributor is kept in the mapping yet
not returned. -/
theorem C10_returned_set_witness :
    (∀ u', u' ∈ (get_all_contributors (some "bob\tb@x.com\n".data) [] (fun _ => none)).returned ↔
        ∃ e ∈ ([] : List Str),
          emailToUsername (get_all_contributors (some "bob\tb@x.com\n".data) [] (fun _ => none)).finalMap e =
            some u') ∧
      hasKey (get_all_contributors (some "bob\tb@x.com\n".data) [] (fun _ => none)).finalMap
        "bob".data = true ∧
      "bob".data ∉ (get_all_contributors (some "bob\tb@x.com\n".data) [] (fun _ => none)).returned :=
  C10_returned_set "bob\tb@x.com\n".data [] (fun _ => none) "bob".data
    ⟨"b@x.com".data, by decide⟩ (fun e _ => by simp)

/-- A list is a boolean prefix of itself followed by anything. -/
theorem isPrefixOf_append_self (l t : Str) : l.isPrefixOf (l ++ t) = true := by
  induction l with
  | nil => simp [List.isPrefixOf]
  | cons a as ih => simp [List.isPrefixOf, ih]

/-- An explicitly embedded substring is found by `isSubstr`. -/
theorem isSubstr_append (n pre post : Str) : isSubstr n (pre ++ (n ++ post)) = true := by
  induction pre with
  | nil =>
    cases n with
    | nil => cases post <;> simp [isSubstr, List.isPrefixOf]
    | cons c cs =>
      have h := isPrefixOf_append_self (c :: cs) post
      simp only [List.nil_append]
      rw [show (c :: cs) ++ post = c :: (cs ++ post) from rfl]
      simp [isSubstr]
  | cons p pre ih => simp [isSubstr, ih]

/-- C9, counterexample: `_resolve_email` strips any prefix before the first
`+`, not only a numeric-id prefix: for `abc+bob@users.noreply.github.com` the
code resolves to `bob`, while the claim's derivation ("the local part,
stripping any numeric-id prefix before a `+`", modelled by
`spec_noreply_username`) keeps the non-numeric prefix and yields `abc+bob`. -/
theorem C9_counterexample :
    _resolve_email "abc+bob@users.noreply.github.com".data [] =
        .returns (some "bob".data) ∧
      spec_noreply_username "abc+bob@users.noreply.github.com".data = "abc+bob".data ∧
      "bob".data ≠ "abc+bob".data := by
  decide

/-- C9, amended: for every no-reply address, the username is derived locally
(no remote call is consulted — `responses` is irrelevant): the local part up
to the first `@`; when it contains a `+`, the segment between the first and
second `+` — so any prefix before the first `+` is stripped, numeric or not.
In particular `12345+alice@users.noreply.github.com` resolves to `alice` and
`bob@users.noreply.github.com` resolves to `bob` (see the witness). -/
theorem C9_amended :
    (∀ (p un : Str) (responses : List HttpResult),
        '+' ∉ p → '@' ∉ p → '+' ∉ un → '@' ∉ un →
        _resolve_email (p ++ '+' :: un ++ "@users.noreply.github.com".data) responses =
          .returns (some un)) ∧
      (∀ (un : Str) (responses : List HttpResult), '+' ∉ un → '@' ∉ un →
        _resolve_email (un ++ "@users.noreply.github.com".data) responses =
          .returns (some un)) := by
  constructor
  · intro p un responses hpp hpa hup hua
    have hform : p ++ '+' :: un ++ "@users.noreply.github.com".data =
        (p ++ '+' :: un) ++ '@' :: "users.noreply.github.com".data := by
      simp
    have hlocal_at : '@' ∉ p ++ '+' :: un := by
      intro hmem
      rcases List.mem_append.mp hmem with h | h
      · exact hpa h
      · rcases List.mem_cons.mp h with h | h
        · exact absurd h (by decide)
        · exact hua h
    have hsub : isSubstr "users.noreply.github.com".data
        (p ++ '+' :: un ++ "@users.noreply.github.com".data) = true := by
      rw [show p ++ '+' :: un ++ "@users.noreply.github.com".data =
            (p ++ '+' :: un ++ ['@']) ++ ("users.noreply.github.com".data ++ []) from by
          simp]
      exact isSubstr_append _ _ _
    have hcontains : (p ++ '+' :: un).contains '+' = true :=
      List.elem_iff.mpr (List.mem_append_right p (List.mem_cons_self '+' un))
    unfold _resolve_email
    rw [if_pos hsub, hform, splitChar_append_cons,
        splitChar_of_not_mem '@' _ hlocal_at]
    simp only [List.singleton_append, List.headI, hcontains, if_true]
    rw [show p ++ '+' :: un = p ++ '+' :: (un ++ []) from by simp,
        splitChar_append_cons, splitChar_of_not_mem '+' p hpp,
        splitChar_of_not_mem '+' (un ++ []) (by simpa using hup)]
    simp
  · intro un responses hup hua
    have hsub : isSubstr "users.noreply.github.com".data
        (un ++ "@users.noreply.github.com".data) = true := by
      rw [show un ++ "@users.noreply.github.com".data =
            (un ++ ['@']) ++ ("users.noreply.github.com".data ++ []) from by simp]
      exact isSubstr_append _ _ _
    have hcontains : un.contains '+' = false :=
      Bool.eq_false_iff.mpr (fun h => hup (List.elem_iff.mp h))
    unfold _resolve_email
    rw [if_pos hsub,
        show un ++ "@users.noreply.github.com".data =
          un ++ '@' :: "users.noreply.github.com".data from rfl,
        splitChar_append_cons, splitChar_of_not_mem '@' un hua]
    simp [hcontains]
    intro h
    exact absurd h hup

/-- C9, witness: the two concrete derivations of the claim. -/
theorem C9_amended_witness :
    _resolve_email "12345+alice@users.noreply.github.com".data [] =
        .returns (some "alice".data) ∧
      _resolve_email "bob@users.noreply.github.com".data [] =
        .returns (some "bob".data) :=
  ⟨by
    have h := C9_amended.1 "12345".data "alice".data [] (by decide) (by decide)
      (by decide) (by decide)
    simpa using h,
   by
    have h := C9_amended.2 "bob".data [] (by decide) (by decide)
    simpa using h⟩

/-- `dropLit` yields a suffix: its characters occur in the input. -/
theorem mem_of_dropLit (pre s r : Str) (h : dropLit pre s = some r) :
    ∀ x ∈ r, x ∈ s := by
  unfold dropLit at h
  split at h
  · cases h
    exact fun x hx => List.mem_of_mem_drop hx
  · cases h

/-- Characters of a `takeWhile` occur in the input. -/
theorem mem_of_takeWhile (p : Char → Bool) (l : Str) :
    ∀ x ∈ l.takeWhile p, x ∈ l :=
  fun x hx => ( List.takeWhile_prefix p).sublist.mem hx

/-- Characters of a `dropWhile` occur in the input. -/
theorem mem_of_dropWhile (p : Char → Bool) (l : Str) :
    ∀ x ∈ l.dropWhile p, x ∈ l :=
  fun x hx => ( List.dropWhile_suffix p).sublist.mem hx

/-- `dropAlt` yields a suffix: its characters occur in the input. -/
theorem mem_of_dropAlt (r r3 : Str) (h : dropAlt r = some r3) :
    ∀ x ∈ r3, x ∈ r := by
  unfold dropAlt at h
  cases hA : dropLit "/issues/".data r with
  | some v =>
    rw [hA] at h
    cases h
    exact mem_of_dropLit _ _ _ hA
  | none =>
    rw [hA] at h
    exact mem_of_dropLit _ _ _ h

/-- Non-membership distributes over concatenation. -/
theorem not_mem_append (x : Char) (a b : Str) (ha : x ∉ a) (hb : x ∉ b) :
    x ∉ a ++ b :=
  fun h => (List.mem_append.mp h).elim ha hb

/-- The first substitution introduces no newline: replacement and remainder
characters come from the input or from the (newline-free) template. -/
theorem tryMatch1_no_newline (s rep rem : Str) (hs : '\n' ∉ s)
    (h : tryMatch1 s = some (rep, rem)) : '\n' ∉ rep ∧ '\n' ∉ rem := by
  unfold tryMatch1 at h
  cases s with
  | nil => cases h
  | cons c rest =>
    simp only at h
    split at h
    · cases h
    · split at h
      · cases h
      · next r1 hd =>
        have hr1 : ∀ x ∈ r1, x ∈ c :: rest :=
          fun x hx => List.mem_cons_of_mem c (mem_of_dropLit _ _ _ hd x hx)
        split at h
        · cases h
        · split at h
          · cases h
          · next r3 hd2 =>
            have hr3 : ∀ x ∈ r3, x ∈ c :: rest := fun x hx =>
              hr1 x (mem_of_dropWhile isUrlWord r1 x
                (mem_of_dropAlt _ _ hd2 x hx))
            split at h
            · cases h
            · rw [Option.some.injEq] at h
              have h1 : rep = "[#".data ++ r3.takeWhile Char.isDigit ++
                  "](https://github.com/ActivityWatch/".data ++ r1.takeWhile isUrlWord ++
                  "/issues/".data ++ r3.takeWhile Char.isDigit ++ ")".data :=
                (congrArg Prod.fst h).symm
              have h2 : rem = r3.dropWhile Char.isDigit :=
                (congrArg Prod.snd h).symm
              have hg3 : '\n' ∉ r3.takeWhile Char.isDigit :=
                fun hm => hs (hr3 '\n' (mem_of_takeWhile _ _ '\n' hm))
              have hg1 : '\n' ∉ r1.takeWhile isUrlWord :=
                fun hm => hs (hr1 '\n' (mem_of_takeWhile _ _ '\n' hm))
              constructor
              · rw [h1]
                intro hmem
                simp only [List.mem_append] at hmem
                rcases hmem with ((((((hm | hm) | hm) | hm) | hm) | hm) | hm)
                · exact absurd hm (by decide)
                · exact hg3 hm
                · exact absurd hm (by decide)
                · exact hg1 hm
                · exact absurd hm (by decide)
                · exact hg3 hm
                · exact absurd hm (by decide)
              · rw [h2]
                exact fun hmem => hs (hr3 '\n' (mem_of_dropWhile _ _ '\n' hmem))

/-- The second substitution introduces no newline. -/
theorem tryMatch2_no_newline (repo s rep rem : Str) (hs : '\n' ∉ s)
    (hr : '\n' ∉ repo) (h : tryMatch2 repo s = some (rep, rem)) :
    '\n' ∉ rep ∧ '\n' ∉ rem := by
  unfold tryMatch2 at h
  split at h
  · next rest =>
    split at h
    · cases h
    · rw [Option.some.injEq] at h
      have h1 : rep = "[#".data ++ rest.takeWhile Char.isDigit ++
          "](https://github.com/ActivityWatch/".data ++ repo ++
          "/issues/".data ++ rest.takeWhile Char.isDigit ++ ")".data :=
        (congrArg Prod.fst h).symm
      have h2 : rem = rest.dropWhile Char.isDigit := (congrArg Prod.snd h).symm
      have hrest : '\n' ∉ rest := fun hm => hs (List.mem_cons_of_mem '#' hm)
      have hds : '\n' ∉ rest.takeWhile Char.isDigit :=
        fun hm => hrest (mem_of_takeWhile _ _ '\n' hm)
      constructor
      · rw [h1]
        exact not_mem_append _ _ _
          (not_mem_append _ _ _
            (not_mem_append _ _ _
              (not_mem_append _ _ _
                (not_mem_append _ _ _
                  (not_mem_append _ _ _ (by decide) hds)
                  (by decide))
                hr)
              (by decide))
            hds)
          (by decide)
      · rw [h2]
        exact fun hm => hrest (mem_of_dropWhile _ _ '\n' hm)
  · cases h

/-- The third substitution introduces no newline (its replacement inserts the
NUL character, not a newline). -/
theorem tryMatch3_no_newline (repo s rep rem : Str) (hs : '\n' ∉ s)
    (hr : '\n' ∉ repo) (h : tryMatch3 repo s = some (rep, rem)) :
    '\n' ∉ rep ∧ '\n' ∉ rem := by
  unfold tryMatch3 at h
  cases s with
  | nil => cases h
  | cons c rest =>
    simp only at h
    split at h
    · split at h
      · split at h
        · cases h
        · next d rem' heq =>
          split at h
          · rw [Option.some.injEq] at h
            have h1 : rep = "[`".data ++ [nulChar] ++
                "`](https://github.com/ActivityWatch/".data ++ repo ++
                "/issues/".data ++ [nulChar] ++ ")".data :=
              (congrArg Prod.fst h).symm
            have h2 : rem = rem' := (congrArg Prod.snd h).symm
            have hrest : '\n' ∉ rest := fun hm => hs (List.mem_cons_of_mem c hm)
            constructor
            · rw [h1]
              exact not_mem_append _ _ _
                (not_mem_append _ _ _
                  (not_mem_append _ _ _
                    (not_mem_append _ _ _
                      (not_mem_append _ _ _
                        (not_mem_append _ _ _ (by decide) (by decide))
                        (by decide))
                      hr)
                    (by decide))
                  (by decide))
                (by decide)
            · rw [h2]
              intro hm
              have : '\n' ∈ rest.drop 7 := by
                rw [heq]
                exact List.mem_cons_of_mem d hm
              exact hrest (List.mem_of_mem_drop this)
          · cases h
      · cases h
    · cases h

/-- The scan loop of `re.sub` introduces no newline when the matcher does
not. -/
theorem subScan_no_newline (try1 : Str → Option (Str × Str))
    (h1 : ∀ s rep rem, '\n' ∉ s → try1 s = some (rep, rem) → '\n' ∉ rep ∧ '\n' ∉ rem) :
    ∀ (fuel : Nat) (s : Str), '\n' ∉ s → '\n' ∉ subScan try1 fuel s := by
  intro fuel
  induction fuel with
  | zero => intro s hs; simpa [subScan] using hs
  | succ fuel ih =>
    intro s hs
    cases s with
    | nil => simp [subScan]
    | cons c rest =>
      simp only [subScan]
      cases ht : try1 (c :: rest) with
      | none =>
        intro hmem
        rcases List.mem_cons.mp hmem with h | h
        · exact hs (by rw [h]; exact List.mem_cons_self c rest)
        · exact ih rest (fun hm => hs (List.mem_cons_of_mem c hm)) h
      | some pr =>
        obtain ⟨rep, rem⟩ := pr
        obtain ⟨hrep, hrem⟩ := h1 _ _ _ hs ht
        intro hmem
        rcases List.mem_append.mp hmem with h | h
        · exact hrep h
        · exact ih rem hrem h

/-- `msg_processed` introduces no newline. -/
theorem msg_processed_no_newline (c : Commit) (hm : '\n' ∉ c.msg)
    (hr : '\n' ∉ c.repo) : '\n' ∉ c.msg_processed := by
  unfold Commit.msg_processed
  apply subScan_no_newline _
    (fun s rep rem hs ht => tryMatch3_no_newline c.repo s rep rem hs hr ht)
  apply subScan_no_newline _
    (fun s rep rem hs ht => tryMatch2_no_newline c.repo s rep rem hs hr ht)
  exact subScan_no_newline _
    (fun s rep rem hs ht => tryMatch1_no_newline s rep rem hs ht) _ _ hm

/-- `commit_linkify` of clean inputs is newline-free. -/
theorem commit_linkify_no_newline (commitid repo : Str) (hid : '\n' ∉ commitid)
    (hr : '\n' ∉ repo) : '\n' ∉ commit_linkify commitid repo := by
  unfold commit_linkify
  exact not_mem_append _ _ _
    (not_mem_append _ _ _
      (not_mem_append _ _ _
        (not_mem_append _ _ _
          (not_mem_append _ _ _
            (not_mem_append _ _ _ (by decide) hid)
            (by decide))
          hr)
        (by decide))
      hid)
    (by decide)

/-- A formatted commit line is newline-free for clean id, message and repo. -/
theorem format_no_newline (c : Commit) (hid : '\n' ∉ c.id) (hm : '\n' ∉ c.msg)
    (hr : '\n' ∉ c.repo) : '\n' ∉ c.format := by
  have hmp := msg_processed_no_newline c hm hr
  by_cases h0 : c.id = []
  · simp only [Commit.format]
    rw [if_neg (by simp [h0])]
    simpa using hmp
  · have hlink := commit_linkify_no_newline c.id c.repo hid hr
    have hne : commit_linkify c.id c.repo ≠ [] := by
      intro hc
      have hmem : '[' ∈ commit_linkify c.id c.repo := by
        unfold commit_linkify
        repeat apply List.mem_append_left
        decide
      rw [hc] at hmem
      simp at hmem
    simp only [Commit.format]
    rw [if_pos h0, if_pos hne]
    exact not_mem_append _ _ _ hmp
      (not_mem_append _ _ _
        (not_mem_append _ _ _ (by decide) hlink)
        (by decide))

/-- Appending one clean entry extends a bucket shape. -/
theorem entriesShape_append (b t : Str) (ts : List Str) (h : EntriesShape b ts)
    (ht : '\n' ∉ t) : EntriesShape (b ++ entryOf t) (ts ++ [t]) := by
  obtain ⟨hclean, hb⟩ := h
  constructor
  · intro x hx
    rcases List.mem_append.mp hx with h' | h'
    · exact hclean x h'
    · rw [List.mem_singleton.mp h']
      exact ht
  · rw [hb, List.map_append, List.flatten_append]
    simp

/-- The empty bucket has the empty shape. -/
theorem entriesShape_nil : EntriesShape [] [] := ⟨by simp, by simp⟩

/-- `parseLogLine` succeeds exactly on four-field lines. -/
theorem parseLogLine_eq (line i a e m : Str)
    (h : parseLogLine line = some (i, a, e, m)) :
    splitChar '\t' line = [i, a, e, m] := by
  unfold parseLogLine at h
  split at h
  · next heq =>
    rw [Option.some.injEq] at h
    rw [heq]
    exact congrArg (fun q => [q.1, q.2.1, q.2.2.1, q.2.2.2]) h
  · cases h

/-- The bucketing loop produces shaped buckets: every bucket string is a
concatenation of `"\n - "`-entries with newline-free tails, one per bucketed
commit. -/
theorem bucketLines_shape (dirname : Str) (fs : List Str) (hdn : '\n' ∉ dirname) :
    ∀ (lines : List Str) (st st' : Buckets) (tf tx tm : List Str),
      (∀ line ∈ lines, '\n' ∉ line) →
      EntriesShape st.feats tf → EntriesShape st.fixes tx → EntriesShape st.misc tm →
      bucketLines dirname fs lines st = some st' →
      ∃ tf' tx' tm', EntriesShape st'.feats tf' ∧ EntriesShape st'.fixes tx' ∧
        EntriesShape st'.misc tm' := by
  intro lines
  induction lines with
  | nil =>
    intro st st' tf tx tm _ hf hx hm h
    simp only [bucketLines, Option.some.injEq] at h
    exact ⟨tf, tx, tm, h ▸ hf, h ▸ hx, h ▸ hm⟩
  | cons line rest ih =>
    intro st st' tf tx tm hcl hf hx hm h
    have hrest : ∀ l ∈ rest, '\n' ∉ l := fun l hl => hcl l (List.mem_cons_of_mem line hl)
    have hline : '\n' ∉ line := hcl line (List.mem_cons_self line rest)
    simp only [bucketLines] at h
    split at h
    · exact ih st st' tf tx tm hrest hf hx hm h
    · split at h
      · cases h
      · next i a e0 m heqp =>
        have hsp := parseLogLine_eq line i a e0 m heqp
        have hi : '\n' ∉ i := by
          intro hc
          exact hline (mem_of_mem_splitChar '\t' line i
            (hsp ▸ List.mem_cons_self i [a, e0, m]) '\n' hc)
        have hmsg : '\n' ∉ m := by
          intro hc
          refine hline (mem_of_mem_splitChar '\t' line m ?_ '\n' hc)
          rw [hsp]
          simp
        have hfmt : '\n' ∉ (Commit.mk i m dirname).format :=
          format_no_newline ⟨i, m, dirname⟩ hi hmsg hdn
        split at h
        · exact ih ⟨st.feats ++ entryOf (Commit.mk i m dirname).format, st.fixes,
              st.misc, st.emails ++ [e0]⟩ st'
            (tf ++ [(Commit.mk i m dirname).format]) tx tm hrest
            (entriesShape_append _ _ _ hf hfmt) hx hm h
        · split at h
          · exact ih ⟨st.feats, st.fixes ++ entryOf (Commit.mk i m dirname).format,
                st.misc, st.emails ++ [e0]⟩ st'
              tf (tx ++ [(Commit.mk i m dirname).format]) tm hrest
              hf (entriesShape_append _ _ _ hx hfmt) hm h
          · split at h
            · exact ih ⟨st.feats, st.fixes,
                  st.misc ++ entryOf (Commit.mk i m dirname).format,
                  st.emails ++ [e0]⟩ st'
                tf tx (tm ++ [(Commit.mk i m dirname).format]) hrest
                hf hx (entriesShape_append _ _ _ hm hfmt) h
            · exact ih ⟨st.feats, st.fixes, st.misc, st.emails ++ [e0]⟩ st'
                tf tx tm hrest hf hx hm h

/-- A shaped bucket contains exactly one newline per entry. -/
theorem count_entries (ts : List Str) (hts : ∀ t ∈ ts, '\n' ∉ t) :
    ((ts.map entryOf).flatten).count '\n' = ts.length := by
  induction ts with
  | nil => simp
  | cons t rest ih =>
    simp only [List.map_cons, List.flatten_cons, List.count_append]
    have h0 : t.count '\n' = 0 :=
      List.count_eq_zero.mpr (hts t (List.mem_cons_self t rest))
    have h1 : (entryOf t).count '\n' = 1 := by
      unfold entryOf
      rw [List.count_append, h0]
      decide
    rw [h1, ih (fun t' ht' => hts t' (List.mem_cons_of_mem _ ht'))]
    simp [Nat.add_comm]

/-- The number of chunks is one more than the number of separators. -/
theorem length_splitChar (sep : Char) (s : Str) :
    (splitChar sep s).length = s.count sep + 1 := by
  induction s with
  | nil => simp [splitChar]
  | cons c rest ih =>
    simp only [splitChar]
    by_cases hc : c = sep
    · rw [if_pos hc]
      simp [ih, hc]
    · rw [if_neg hc]
      obtain ⟨a, l, hal⟩ : ∃ a l, splitChar sep rest = a :: l := by
        cases h : splitChar sep rest with
        | nil => exact absurd h (splitChar_ne_nil sep rest)
        | cons a l => exact ⟨a, l, rfl⟩
      rw [hal]
      have := ih
      rw [hal] at this
      simp only [List.length_cons] at this ⊢
      rw [this]
      simp [List.count_cons, hc]

/-- `dropWhile` passes over a failing element unchanged. -/
theorem dropWhile_append_cons (p : Char → Bool) (xs : Str) (c : Char) (ys : Str)
    (hc : p c = false) :
    (xs ++ c :: ys).dropWhile p = xs.dropWhile p ++ c :: ys := by
  induction xs with
  | nil => simp [List.dropWhile, hc]
  | cons x xs ih =>
    by_cases hx : p x = true
    · simp [List.dropWhile, hx, ih]
    · simp only [Bool.not_eq_true] at hx
      simp [List.dropWhile, hx]

/-- Right-stripping a string whose tail after some `-` is newline-free does
not change its newline count. -/
theorem count_pyRStrip_dash (A d : Str) (hd : '\n' ∉ d) :
    (pyRStrip (A ++ '-' :: d)).count '\n' = (A ++ '-' :: d).count '\n' := by
  unfold pyRStrip
  rw [List.reverse_append, show ('-' :: d).reverse = d.reverse ++ ['-'] by simp,
      List.append_assoc, List.singleton_append,
      dropWhile_append_cons isPyWS d.reverse '-' A.reverse (by decide)]
  rw [List.count_reverse, List.count_append, List.count_append,
      List.count_cons, List.count_cons]
  have h1 : (d.reverse.dropWhile isPyWS).count '\n' = 0 := by
    refine List.count_eq_zero.mpr (fun hc => hd ?_)
    have := mem_of_dropWhile isPyWS d.reverse '\n' hc
    simpa using this
  have h2 : d.count '\n' = 0 := List.count_eq_zero.mpr hd
  rw [List.count_reverse, h1, h2]
  simp

/-- The entry count computed by the rendering loop
(`len(entries.strip().split_on_newlines)`) equals the number of entries of a
shaped non-empty bucket. -/
theorem splitCount_of_shape (ts : List Str) (hne : ts ≠ [])
    (hts : ∀ t ∈ ts, '\n' ∉ t) :
    (splitChar '\n' (pyStrip ((ts.map entryOf).flatten))).length = ts.length := by
  obtain ⟨t₁, rest, rfl⟩ : ∃ a l, ts = a :: l := by
    cases ts with
    | nil => exact absurd rfl hne
    | cons a l => exact ⟨a, l, rfl⟩
  have ht₁ : '\n' ∉ t₁ := hts t₁ (List.mem_cons_self t₁ rest)
  have hrest : ∀ t ∈ rest, '\n' ∉ t := fun t ht => hts t (List.mem_cons_of_mem _ ht)
  have hfront : (((t₁ :: rest).map entryOf).flatten).dropWhile isPyWS =
      '-' :: ' ' :: (t₁ ++ (rest.map entryOf).flatten) := by
    simp only [List.map_cons, List.flatten_cons]
    rw [show entryOf t₁ ++ (rest.map entryOf).flatten =
          '\n' :: ' ' :: '-' :: ' ' :: (t₁ ++ (rest.map entryOf).flatten) from by
        simp [entryOf]]
    rw [show ('\n' :: ' ' :: '-' :: ' ' :: (t₁ ++ (rest.map entryOf).flatten)).dropWhile
          isPyWS = '-' :: ' ' :: (t₁ ++ (rest.map entryOf).flatten) from rfl]
  have hcount : (pyStrip (((t₁ :: rest).map entryOf).flatten)).count '\n' =
      rest.length := by
    unfold pyStrip
    rw [hfront]
    show List.count '\n'
        (pyRStrip ('-' :: ' ' :: (t₁ ++ (rest.map entryOf).flatten))) = rest.length
    rcases List.eq_nil_or_concat rest with hr | ⟨rs, tl, hr⟩
    · subst hr
      rw [show '-' :: ' ' :: (t₁ ++ (([] : List Str).map entryOf).flatten) =
            [] ++ '-' :: (' ' :: t₁) from by simp]
      rw [count_pyRStrip_dash [] (' ' :: t₁) (by simpa using ht₁)]
      simp [List.count_cons, List.count_eq_zero.mpr ht₁]
    · subst hr
      rw [List.concat_eq_append] at hrest ⊢
      have htl : '\n' ∉ tl := hrest tl (by simp)
      have hdecomp : '-' :: ' ' :: (t₁ ++ ((rs ++ [tl]).map entryOf).flatten) =
          ('-' :: ' ' :: (t₁ ++ (rs.map entryOf).flatten ++ ['\n', ' '])) ++
            '-' :: (' ' :: tl) := by
        simp [entryOf, List.append_assoc]
      rw [hdecomp, count_pyRStrip_dash _ _ (by simpa using htl), ← hdecomp]
      simp only [List.count_cons, List.count_append]
      rw [List.count_eq_zero.mpr ht₁,
          count_entries (rs ++ [tl]) (fun t ht => hrest t ht)]
      simp
  rw [length_splitChar, hcount]
  simp

/-- One rendering-loop iteration appends one optional block. -/
theorem render_section_eq (acc name entries : Str) :
    render_section acc name entries =
      acc ++ (if entries = [] then [] else sectionBlock name entries) := by
  simp only [render_section, sectionBlock, titleOf]
  by_cases h0 : entries = []
  · simp [h0]
  · rw [if_neg h0, if_neg h0]
    by_cases hb : (isSubstr "Misc".data name || isSubstr "Fixes".data name) = true
    · rw [if_pos hb, if_pos hb]
    · rw [if_neg hb, if_neg hb]
      simp [List.append_assoc]

/-- The rendering loop emits the three optional blocks in order. -/
theorem render_sections_eq (f x m : Str) :
    render_sections f x m =
      (if f = [] then [] else sectionBlock "✨ Features".data f) ++
        (if x = [] then [] else sectionBlock "🐛 Fixes".data x) ++
        (if m = [] then [] else sectionBlock "🔨 Misc".data m) := by
  unfold render_sections
  rw [render_section_eq, render_section_eq, render_section_eq]
  simp [List.append_assoc]

/-- Infix is preserved by prepending. -/
theorem isInfix_append_left (t A B : Str) (h : List.IsInfix t B) :
    List.IsInfix t (A ++ B) :=
  h.trans (List.suffix_append A B).isInfix

/-- Infix is preserved by appending. -/
theorem isInfix_append_right (t B C : Str) (h : List.IsInfix t B) :
    List.IsInfix t (B ++ C) :=
  h.trans (List.prefix_append B C).isInfix

/-- The title of a `wrap_details` block, its `###` marker included, occurs in
the block. -/
theorem wrap_details_title_infix (title body : Str) :
    List.IsInfix ("### ".data ++ title) (wrap_details title body 5) := by
  have hbase : List.IsInfix ("### ".data ++ title) ("\n\n### ".data ++ title) :=
    ⟨"\n\n".data, [], by
      rw [List.append_nil, ← List.append_assoc,
          show "\n\n".data ++ "### ".data = "\n\n### ".data from rfl]⟩
  unfold wrap_details
  by_cases hc : body.count '\n' > 5
  · rw [if_pos hc, if_pos hc]
    exact isInfix_append_right _ _ _ (isInfix_append_right _ _ _
      (isInfix_append_right _ _ _ (isInfix_append_right _ _ _
        (isInfix_append_right _ _ _ hbase))))
  · rw [if_neg hc, if_neg hc]
    exact isInfix_append_right _ _ _ (isInfix_append_right _ _ _
      (isInfix_append_right _ _ _ hbase))

/-- A long `wrap_details` body is collapsed: the `<details>` opening occurs in
the block. -/
theorem wrap_details_collapsed (title body : Str) (hc : body.count '\n' > 5) :
    List.IsInfix "\n<details><summary>Click to expand</summary>".data
      (wrap_details title body 5) := by
  unfold wrap_details
  rw [if_pos hc, if_pos hc]
  exact isInfix_append_right _ _ _ (isInfix_append_right _ _ _
    (isInfix_append_right _ _ _ (isInfix_append_right _ _ _
      ⟨"\n\n### ".data ++ title, [], by rw [List.append_nil]⟩)))

/-- The plain (`Features`) block contains its `###`-marked title. -/
theorem plain_block_title_infix (title entries : Str) :
    List.IsInfix ("### ".data ++ title)
      ("\n\n### ".data ++ title ++ entries) := by
  refine isInfix_append_right _ _ _ ⟨"\n\n".data, [], ?_⟩
  rw [List.append_nil, ← List.append_assoc,
      show "\n\n".data ++ "### ".data = "\n\n### ".data from rfl]

/-- A shaped bucket is empty exactly when it has no entries. -/
theorem entriesShape_ne_nil (b : Str) (ts : List Str) (h : EntriesShape b ts)
    (hb : b ≠ []) : ts ≠ [] := by
  intro h0
  obtain ⟨_, hEq⟩ := h
  rw [h0] at hEq
  simp at hEq
  exact hb hEq

/-- A bucket with entries is a non-empty string. -/
theorem entriesShape_nonempty (b : Str) (ts : List Str) (h : EntriesShape b ts)
    (hts : ts ≠ []) : b ≠ [] := by
  obtain ⟨_, hb⟩ := h
  rw [hb]
  rcases ts with _ | ⟨t, r⟩
  · exact absurd rfl hts
  · simp [entryOf]

/-- `Fixes` and `Misc` buckets go through `wrap_details`. -/
theorem sectionBlock_wrap (name b : Str)
    (hb : (isSubstr "Misc".data name || isSubstr "Fixes".data name) = true) :
    sectionBlock name b =
      wrap_details (titleOf name (splitChar '\n' (pyStrip b)).length) b 5 := by
  unfold sectionBlock
  rw [if_pos hb]

/-- The `Features` bucket is emitted directly, never collapsed. -/
theorem sectionBlock_plain (name b : Str)
    (hb : (isSubstr "Misc".data name || isSubstr "Fixes".data name) = false) :
    sectionBlock name b =
      "\n\n### ".data ++ titleOf name (splitChar '\n' (pyStrip b)).length ++ b := by
  unfold sectionBlock
  rw [if_neg (by simp [hb])]

set_option maxRecDepth 200000 in
/-- C4, counterexample: a Features bucket of 7 entries — more than the
`wraplines = 5` threshold — is *not* collapsed: only `Fixes` and `Misc` are
routed through `wrap_details`, so the output contains no `<details>` element
at all, refuting "every bucket whose body exceeds the threshold is collapsed";
the count does appear in the title. -/
theorem C4_counterexample :
    ((summary_repo "awtest".data c4bundle
        ["build".data, "ci".data, "tests".data, "test".data]).map
      (fun r => !(isSubstr "<details>".data r.out) &&
        isSubstr "### ✨ Features (7)".data r.out)) = some true := by
  decide

/-- C4, amended: every non-empty bucket is rendered as a titled block whose
title carries the exact entry count (`titleOf name count` with `count` the
number of bucketed commits), and the `Fixes` and `Misc` buckets are collapsed
under a `<details>` disclosure element when they exceed the `wraplines = 5`
threshold; the `Features` bucket is never routed through `wrap_details`
(see the counterexample for a 7-entry Features bucket emitted uncollapsed). -/
theorem C4_amended (dirname bundle : Str) (fs : List Str) (res : RepoSummary)
    (hdn : '\n' ∉ dirname)
    (hsum : summary_repo dirname bundle fs = some res) :
    ∃ st : Buckets,
      bucketLines dirname fs (splitChar '\n' bundle) ⟨[], [], [], []⟩ = some st ∧
        res.out = "\n## 📦 ".data ++ dirname ++
          render_sections st.feats st.fixes st.misc ∧
        ∃ tf tx tm, EntriesShape st.feats tf ∧ EntriesShape st.fixes tx ∧
          EntriesShape st.misc tm ∧
          (st.feats ≠ [] →
            List.IsInfix ("### ".data ++ titleOf "✨ Features".data tf.length) res.out) ∧
          (st.fixes ≠ [] →
            List.IsInfix ("### ".data ++ titleOf "🐛 Fixes".data tx.length) res.out) ∧
          (st.misc ≠ [] →
            List.IsInfix ("### ".data ++ titleOf "🔨 Misc".data tm.length) res.out) ∧
          (tx.length > 5 →
            List.IsInfix "\n<details><summary>Click to expand</summary>".data res.out) ∧
          (tm.length > 5 →
            List.IsInfix "\n<details><summary>Click to expand</summary>".data res.out) := by
  unfold summary_repo at hsum
  split at hsum
  · cases hsum
  · next st heq =>
    rw [Option.some.injEq] at hsum
    have hout : res.out = "\n## 📦 ".data ++ dirname ++
        render_sections st.feats st.fixes st.misc := by rw [← hsum]
    have hlines : ∀ line ∈ splitChar '\n' bundle, '\n' ∉ line :=
      fun line hl => not_mem_of_mem_splitChar '\n' bundle line hl
    obtain ⟨tf, tx, tm, hf, hx, hm⟩ :=
      bucketLines_shape dirname fs hdn (splitChar '\n' bundle) ⟨[], [], [], []⟩ st
        [] [] [] hlines entriesShape_nil entriesShape_nil entriesShape_nil heq
    have hlift1 : ∀ t : Str,
        List.IsInfix t (if st.feats = [] then []
          else sectionBlock "✨ Features".data st.feats) →
        List.IsInfix t res.out := by
      intro t ht
      rw [hout, render_sections_eq]
      exact isInfix_append_left _ _ _
        (isInfix_append_right _ _ _ (isInfix_append_right _ _ _ ht))
    have hlift2 : ∀ t : Str,
        List.IsInfix t (if st.fixes = [] then []
          else sectionBlock "🐛 Fixes".data st.fixes) →
        List.IsInfix t res.out := by
      intro t ht
      rw [hout, render_sections_eq]
      exact isInfix_append_left _ _ _
        (isInfix_append_right _ _ _ (isInfix_append_left _ _ _ ht))
    have hlift3 : ∀ t : Str,
        List.IsInfix t (if st.misc = [] then []
          else sectionBlock "🔨 Misc".data st.misc) →
        List.IsInfix t res.out := by
      intro t ht
      rw [hout, render_sections_eq]
      exact isInfix_append_left _ _ _ (isInfix_append_left _ _ _ ht)
    refine ⟨st, heq, hout, tf, tx, tm, hf, hx, hm, ?_, ?_, ?_, ?_, ?_⟩
    · intro hne0
      apply hlift1
      rw [if_neg hne0]
      have hcnt : (splitChar '\n' (pyStrip st.feats)).length = tf.length := by
        rw [hf.2]
        exact splitCount_of_shape tf (entriesShape_ne_nil _ _ hf hne0) hf.1
      rw [sectionBlock_plain _ _ (by decide), hcnt]
      exact plain_block_title_infix _ _
    · intro hne0
      apply hlift2
      rw [if_neg hne0]
      have hcnt : (splitChar '\n' (pyStrip st.fixes)).length = tx.length := by
        rw [hx.2]
        exact splitCount_of_shape tx (entriesShape_ne_nil _ _ hx hne0) hx.1
      rw [sectionBlock_wrap _ _ (by decide), hcnt]
      exact wrap_details_title_infix _ _
    · intro hne0
      apply hlift3
      rw [if_neg hne0]
      have hcnt : (splitChar '\n' (pyStrip st.misc)).length = tm.length := by
        rw [hm.2]
        exact splitCount_of_shape tm (entriesShape_ne_nil _ _ hm hne0) hm.1
      rw [sectionBlock_wrap _ _ (by decide), hcnt]
      exact wrap_details_title_infix _ _
    · intro hgt
      apply hlift2
      have hne0 : st.fixes ≠ [] :=
        entriesShape_nonempty _ _ hx (by intro h0; rw [h0] at hgt; simp at hgt)
      rw [if_neg hne0, sectionBlock_wrap _ _ (by decide)]
      apply wrap_details_collapsed
      rw [hx.2, count_entries tx hx.1]
      exact hgt
    · intro hgt
      apply hlift3
      have hne0 : st.misc ≠ [] :=
        entriesShape_nonempty _ _ hm (by intro h0; rw [h0] at hgt; simp at hgt)
      rw [if_neg hne0, sectionBlock_wrap _ _ (by decide)]
      apply wrap_details_collapsed
      rw [hm.2, count_entries tm hm.1]
      exact hgt

set_option maxRecDepth 80000 in
/-- C4, witness: the amended theorem applied to the three-commit scenario. -/
theorem C4_amended_witness :
    ∃ st : Buckets,
      bucketLines "awtest".data ["chore".data] (splitChar '\n' c1bundle)
          ⟨[], [], [], []⟩ = some st ∧
        ((summary_repo "awtest".data c1bundle ["chore".data]).getD ⟨[], []⟩).out =
          "\n## 📦 ".data ++ "awtest".data ++
            render_sections st.feats st.fixes st.misc ∧
        ∃ tf tx tm, EntriesShape st.feats tf ∧ EntriesShape st.fixes tx ∧
          EntriesShape st.misc tm ∧
          (st.feats ≠ [] →
            List.IsInfix ("### ".data ++ titleOf "✨ Features".data tf.length)
              ((summary_repo "awtest".data c1bundle ["chore".data]).getD ⟨[], []⟩).out) ∧
          (st.fixes ≠ [] →
            List.IsInfix ("### ".data ++ titleOf "🐛 Fixes".data tx.length)
              ((summary_repo "awtest".data c1bundle ["chore".data]).getD ⟨[], []⟩).out) ∧
          (st.misc ≠ [] →
            List.IsInfix ("### ".data ++ titleOf "🔨 Misc".data tm.length)
              ((summary_repo "awtest".data c1bundle ["chore".data]).getD ⟨[], []⟩).out) ∧
          (tx.length > 5 →
            List.IsInfix "\n<details><summary>Click to expand</summary>".data
              ((summary_repo "awtest".data c1bundle ["chore".data]).getD ⟨[], []⟩).out) ∧
          (tm.length > 5 →
            List.IsInfix "\n<details><summary>Click to expand</summary>".data
              ((summary_repo "awtest".data c1bundle ["chore".data]).getD ⟨[], []⟩).out) :=
  C4_amended "awtest".data c1bundle ["chore".data]
    ((summary_repo "awtest".data c1bundle ["chore".data]).getD ⟨[], []⟩)
    (by decide) (by decide)

/-!
### C5: exact behaviour of `Commit.parse_type`
-/

/-- `takeWhile` stops exactly at the first failing character. -/
theorem takeWhile_append_of_all (p : Char → Bool) (xs : Str)
    (hxs : ∀ x ∈ xs, p x = true) (c : Char) (hc : p c = false) (ys : Str) :
    (xs ++ c :: ys).takeWhile p = xs := by
  induction xs with
  | nil => simp [List.takeWhile_cons, hc]
  | cons x xs ih =>
    have hx : p x = true := hxs x (List.mem_cons_self x xs)
    simp [List.takeWhile_cons, hx,
      ih (fun a ha => hxs a (List.mem_cons_of_mem x ha))]

/-- `dropWhile` resumes exactly at the first failing character. -/
theorem dropWhile_append_of_all (p : Char → Bool) (xs : Str)
    (hxs : ∀ x ∈ xs, p x = true) (c : Char) (hc : p c = false) (ys : Str) :
    (xs ++ c :: ys).dropWhile p = c :: ys := by
  induction xs with
  | nil => simp [List.dropWhile_cons, hc]
  | cons x xs ih =>
    have hx : p x = true := hxs x (List.mem_cons_self x xs)
    simp [List.dropWhile_cons, hx,
      ih (fun a ha => hxs a (List.mem_cons_of_mem x ha))]

/-- `take` distributes over an append when the index covers the prefix. -/
theorem take_append_len (l₁ l₂ : List α) (k : Nat) :
    (l₁ ++ l₂).take (l₁.length + k) = l₁ ++ l₂.take k := by
  induction l₁ with
  | nil => simp
  | cons x l₁ ih =>
    rw [List.cons_append, List.length_cons,
      show l₁.length + 1 + k = (l₁.length + k) + 1 from by omega,
      List.take_succ_cons, ih, List.cons_append]

/-- `drop` distributes over an append when the index covers the prefix. -/
theorem drop_append_len (l₁ l₂ : List α) (k : Nat) :
    (l₁ ++ l₂).drop (l₁.length + k) = l₂.drop k := by
  induction l₁ with
  | nil => simp
  | cons x l₁ ih =>
    rw [List.cons_append, List.length_cons,
      show l₁.length + 1 + k = (l₁.length + k) + 1 from by omega,
      List.drop_succ_cons, ih]

/-- A successful `[!]?:` match means a colon occurs in the string. -/
theorem colon_mem_of_matchBangColon (l : Str) (h : matchBangColon l = true) :
    ':' ∈ l := by
  cases l with
  | nil => simp [matchBangColon] at h
  | cons c r =>
    cases r with
    | nil =>
      simp [matchBangColon] at h
      subst h
      exact List.mem_cons_self _ _
    | cons d r' =>
      simp [matchBangColon] at h
      rcases h with h | ⟨h1, h2⟩
      · subst h
        exact List.mem_cons_self _ _
      · subst h2
        exact List.mem_cons_of_mem _ (List.mem_cons_self _ _)

/-- Decomposition of a valid greedy-scope split position. -/
theorem goodSplit_eq_true (r : Str) (i : Nat) (h : goodSplit r i = true) :
    1 ≤ i ∧ (∃ rest, r.drop i = ')' :: rest ∧ matchBangColon rest = true) ∧
      '\n' ∉ r.take i := by
  unfold goodSplit at h
  rw [Bool.and_eq_true, Bool.and_eq_true] at h
  obtain ⟨⟨h1, h2⟩, h3⟩ := h
  refine ⟨by simpa using h1, ?_, ?_⟩
  · split at h2
    next c rest hd =>
      rw [Bool.and_eq_true, decide_eq_true_eq] at h2
      exact ⟨rest, h2.1 ▸ hd, h2.2⟩
    next hd => exact absurd h2 (by simp)
  · intro hmem
    rw [Bool.not_eq_true', ← Bool.not_eq_true] at h3
    exact h3 (List.elem_iff.mpr hmem)

/-- The last filtered element of `range n` is the largest satisfying index. -/
theorem getLast_filter_range (n i₀ : Nat) (p : Nat → Bool) (hlt : i₀ < n)
    (hp : p i₀ = true) (hmax : ∀ i, i₀ < i → i < n → p i = false) :
    ((List.range n).filter p).getLast? = some i₀ := by
  have key : ∀ m, i₀ < m → m ≤ n →
      (List.range m).filter p = (List.range (i₀ + 1)).filter p := by
    intro m
    induction m with
    | zero => intro h _; omega
    | succ m ih =>
      intro h1 h2
      rcases Nat.lt_or_ge i₀ m with hm | hm
      · rw [List.range_succ, List.filter_append, ih hm (Nat.le_of_succ_le h2)]
        have hpm : p m = false := hmax m hm (by omega)
        simp [hpm]
      · have : i₀ = m := by omega
        subst this
        rfl
  rw [key n hlt (Nat.le_refl n), List.range_succ, List.filter_append]
  simp [hp, List.getLast?_concat]

/-- A subject accepted by `noLateCloseB` admits no later close position: any
`)` followed by a `[!]?:` match lies beyond a newline. -/
theorem noLateCloseB_spec (s : Str) (h : noLateCloseB s = true) (j : Nat)
    (rest : Str) (hd : s.drop j = ')' :: rest)
    (hm : matchBangColon rest = true) : '\n' ∈ s.take j := by
  induction s generalizing j with
  | nil => simp at hd
  | cons c s ih =>
    cases j with
    | zero =>
      simp only [List.drop_zero, List.cons.injEq] at hd
      obtain ⟨hc, hs⟩ := hd
      subst hc
      subst hs
      unfold noLateCloseB at h
      rw [if_neg (by decide), if_pos rfl, Bool.and_eq_true, hm] at h
      exact absurd h.1 (by decide)
    | succ j =>
      rw [List.drop_succ_cons] at hd
      rw [List.take_succ_cons]
      unfold noLateCloseB at h
      by_cases hc1 : c = '\n'
      · subst hc1
        exact List.mem_cons_self _ _
      · rw [if_neg hc1] at h
        by_cases hc2 : c = ')'
        · rw [if_pos hc2, Bool.and_eq_true] at h
          exact List.mem_cons_of_mem _ (ih h.2 j hd)
        · rw [if_neg hc2] at h
          exact List.mem_cons_of_mem _ (ih h j hd)

/-- For a message rest of the exact shape `scope): subject` with a
well-behaved subject, the greedy scope split lands exactly at the first `)`,
i.e. at position `scope.length`. -/
theorem scopeSplitIdx_eq (scope subject : Str) (hs_ne : scope ≠ [])
    (hs_nl : '\n' ∉ scope) (hnl : noLateCloseB subject = true) :
    scopeSplitIdx (scope ++ ')' :: ':' :: ' ' :: subject) = some scope.length := by
  unfold scopeSplitIdx
  apply getLast_filter_range
  · simp
  · unfold goodSplit
    rw [List.drop_left, List.take_left]
    have h2 : scope.contains '\n' = false := by
      by_contra hne
      rw [Bool.not_eq_false] at hne
      exact hs_nl (List.elem_iff.mp hne)
    have h1 : 1 ≤ scope.length := List.length_pos.mpr hs_ne
    simp [h1, h2, hs_nl, matchBangColon]
  · intro i hgt hlt
    by_contra hne
    rw [Bool.not_eq_false] at hne
    obtain ⟨-, ⟨rest, hdrop, hmatch⟩, htake⟩ := goodSplit_eq_true _ _ hne
    rcases show i - scope.length = 1 ∨ i - scope.length = 2 ∨
        3 ≤ i - scope.length from by omega with hk | hk | hk
    · rw [show i = scope.length + 1 from by omega, drop_append_len] at hdrop
      simp at hdrop
    · rw [show i = scope.length + 2 from by omega, drop_append_len] at hdrop
      simp at hdrop
    · obtain ⟨j, hj⟩ : ∃ j, i = scope.length + (3 + j) :=
        ⟨i - scope.length - 3, by omega⟩
      rw [hj, drop_append_len,
        show (')' :: ':' :: ' ' :: subject).drop (3 + j) = subject.drop j from
          drop_append_len [')' , ':' , ' '] subject j] at hdrop
      have hmem := noLateCloseB_spec subject hnl j rest hdrop hmatch
      apply htake
      rw [hj, take_append_len,
        show (')' :: ':' :: ' ' :: subject).take (3 + j) =
            ')' :: ':' :: ' ' :: subject.take j from
          take_append_len [')' , ':' , ' '] subject j]
      exact List.mem_append_right _ (List.mem_cons_of_mem _
        (List.mem_cons_of_mem _ (List.mem_cons_of_mem _ hmem)))

/-- The split chosen by `scopeSplitIdx` is valid. -/
theorem scopeSplitIdx_good (r : Str) (i : Nat) (h : scopeSplitIdx r = some i) :
    goodSplit r i = true := by
  unfold scopeSplitIdx at h
  exact (List.mem_filter.mp (List.mem_of_mem_getLast? h)).2

/-- A successful match of the regex tail `(\((.+)\))?[!]?:` requires a colon
somewhere in the input. -/
theorem parse_groups_some_colon (l : Str) (sub : Option Str)
    (h : parse_groups l = some sub) : ':' ∈ l := by
  cases l with
  | nil => simp [parse_groups, matchBangColon] at h
  | cons c r =>
    simp only [parse_groups] at h
    by_cases hc : c = '('
    · rw [if_pos hc] at h
      cases hs : scopeSplitIdx r with
      | some i =>
        obtain ⟨-, ⟨rest, hdrop, hmatch⟩, -⟩ :=
          goodSplit_eq_true r i (scopeSplitIdx_good r i hs)
        have h1 : ':' ∈ r.drop i := by
          rw [hdrop]
          exact List.mem_cons_of_mem _ (colon_mem_of_matchBangColon rest hmatch)
        exact List.mem_cons_of_mem _ (List.mem_of_mem_drop h1)
      | none =>
        rw [hs] at h
        by_cases hm : matchBangColon (c :: r) = true
        · exact colon_mem_of_matchBangColon _ hm
        · rw [if_neg hm] at h
          simp at h
    · rw [if_neg hc] at h
      by_cases hm : matchBangColon (c :: r) = true
      · exact colon_mem_of_matchBangColon _ hm
      · rw [if_neg hm] at h
        simp at h

/-- Unfolding of `parse_type` on an explicit commit record. -/
theorem parse_type_mk (idv msg repov : Str) :
    Commit.parse_type ⟨idv, msg, repov⟩ =
      (if msg.takeWhile isWordChar = [] then none
       else
         match parse_groups (msg.dropWhile isWordChar) with
         | none => none
         | some sub =>
           if msg.takeWhile isWordChar ∈ allowedTypes then
             some (msg.takeWhile isWordChar, sub)
           else none) := rfl

/-- Positive direction of C5: a message of the exact shape
`type(scope): subject` with an allow-listed type, a nonempty newline-free
scope and a subject with no later close parses to exactly that type and
scope. -/
theorem parse_type_scoped (ty scope subject idv repov : Str)
    (hty : ty ∈ allowedTypes) (hs_ne : scope ≠ []) (hs_nl : '\n' ∉ scope)
    (hsub : noLateCloseB subject = true) :
    Commit.parse_type
        ⟨idv, ty ++ '(' :: (scope ++ ')' :: ':' :: ' ' :: subject), repov⟩ =
      some (ty, some scope) := by
  have hall : ∀ x ∈ ty, isWordChar x = true := by
    simp only [allowedTypes, List.mem_cons, List.not_mem_nil, or_false] at hty
    rcases hty with h | h | h | h <;> subst h <;> decide
  have hC : isWordChar '(' = false := by decide
  have htw := takeWhile_append_of_all isWordChar ty hall '('
    hC (scope ++ ')' :: ':' :: ' ' :: subject)
  have hdw := dropWhile_append_of_all isWordChar ty hall '('
    hC (scope ++ ')' :: ':' :: ' ' :: subject)
  have hty_ne : ty ≠ [] := by
    intro h
    rw [h] at hty
    exact absurd hty (by decide)
  rw [parse_type_mk, htw, hdw, if_neg hty_ne]
  have hpg : parse_groups ('(' :: (scope ++ ')' :: ':' :: ' ' :: subject)) =
      some (some scope) := by
    simp [parse_groups, scopeSplitIdx_eq scope subject hs_ne hs_nl hsub,
      List.take_left]
  rw [hpg]
  show (if ty ∈ allowedTypes then some (ty, some scope) else none) =
    some (ty, some scope)
  rw [if_pos hty]

/-- Negative direction of C5, disallowed type: any message whose leading
word-character token (group 1 of the regex, the maximal leading `\w+` run) is
outside the allow-list parses to `none`. -/
theorem parse_type_w_not_allowed (idv msg repov : Str)
    (hw : msg.takeWhile isWordChar ∉ allowedTypes) :
    Commit.parse_type ⟨idv, msg, repov⟩ = none := by
  rw [parse_type_mk]
  by_cases h0 : msg.takeWhile isWordChar = []
  · rw [if_pos h0]
  · rw [if_neg h0]
    cases hpg : parse_groups (msg.dropWhile isWordChar) with
    | none => rfl
    | some sub =>
      show (if msg.takeWhile isWordChar ∈ allowedTypes then
          some (msg.takeWhile isWordChar, sub) else none) = none
      rw [if_neg hw]

/-- Negative direction of C5, missing colon: a message without any colon
parses to `none`. -/
theorem parse_type_no_colon (idv msg repov : Str) (h : ':' ∉ msg) :
    Commit.parse_type ⟨idv, msg, repov⟩ = none := by
  rw [parse_type_mk]
  by_cases h0 : msg.takeWhile isWordChar = []
  · rw [if_pos h0]
  · rw [if_neg h0]
    cases hpg : parse_groups (msg.dropWhile isWordChar) with
    | none => rfl
    | some sub =>
      exact absurd
        (mem_of_dropWhile isWordChar msg ':' (parse_groups_some_colon _ _ hpg))
        h

set_option maxRecDepth 20000 in
/-- C5, counterexample: the message `fix(a): b): c` has the claimed shape
`type(scope): subject` with type `fix`, scope `a` and subject `b): c`, yet
`parse_type` does not return scope `a`: the greedy `(.+)` group backtracks to
the *last* viable `)` before the final colon, so the scope comes out as
`a): b` — refuting "returns exactly that type and that scope". -/
theorem C5_counterexample :
    Commit.parse_type ⟨"x".data, "fix(a): b): c".data, "r".data⟩ =
        some ("fix".data, some "a): b".data) ∧
      Commit.parse_type ⟨"x".data, "fix(a): b): c".data, "r".data⟩ ≠
        some ("fix".data, some "a".data) := by
  decide

/-- C5, amended: (1) for a message of the exact shape `type(scope): subject`
with `type` in the allow-list `{build, ci, fix, feat}`, a nonempty
newline-free scope, and a subject in which no later `)` is followed by a
`[!]?:` match before a newline, `parse_type` returns exactly that type and
that scope (without the last condition the greedy scope group extends into
the subject, see the counterexample); (2) any message whose leading
word-character token (the maximal leading `\w+` run, group 1 of the regex) is
outside the allow-list parses to `None` — e.g. `chore: cleanup`; (3) a
message containing no colon at all parses to `None`. -/
theorem C5_amended :
    (∀ ty scope subject idv repov : Str,
        ty ∈ allowedTypes → scope ≠ [] → '\n' ∉ scope →
        noLateCloseB subject = true →
        Commit.parse_type
            ⟨idv, ty ++ '(' :: (scope ++ ')' :: ':' :: ' ' :: subject),
              repov⟩ =
          some (ty, some scope)) ∧
    (∀ idv msg repov : Str, msg.takeWhile isWordChar ∉ allowedTypes →
        Commit.parse_type ⟨idv, msg, repov⟩ = none) ∧
    (∀ idv msg repov : Str, ':' ∉ msg →
        Commit.parse_type ⟨idv, msg, repov⟩ = none) :=
  ⟨fun ty scope subject idv repov h1 h2 h3 h4 =>
      parse_type_scoped ty scope subject idv repov h1 h2 h3 h4,
    fun idv msg repov h1 => parse_type_w_not_allowed idv msg repov h1,
    fun idv msg repov h1 => parse_type_no_colon idv msg repov h1⟩

/-- Concrete instances of the three parts of the amended C5. -/
theorem C5_amended_witness :
    Commit.parse_type ⟨"x".data,
        "feat".data ++ '(' :: ("ui".data ++ ')' :: ':' :: ' ' :: "add".data),
        "r".data⟩ = some ("feat".data, some "ui".data) ∧
      Commit.parse_type ⟨"x".data, "chore: cleanup".data, "r".data⟩ = none ∧
      Commit.parse_type ⟨"x".data, "feat add".data, "r".data⟩ = none :=
  ⟨C5_amended.1 "feat".data "ui".data "add".data "x".data "r".data
      (by decide) (by decide) (by decide) (by decide),
    C5_amended.2.1 "x".data "chore: cleanup".data "r".data (by decide),
    C5_amended.2.2 "x".data "feat add".data "r".data (by decide)⟩

/-- Emails collected by the bucketing loop are tab- and newline-free: each is
the third field of a tab-split newline-free git-log line. -/
theorem bucketLines_emails_clean (dirname : Str) (fs : List Str) :
    ∀ (lines : List Str) (st st' : Buckets),
      (∀ line ∈ lines, '\n' ∉ line) →
      (∀ e ∈ st.emails, '\t' ∉ e ∧ '\n' ∉ e) →
      bucketLines dirname fs lines st = some st' →
      ∀ e ∈ st'.emails, '\t' ∉ e ∧ '\n' ∉ e := by
  intro lines
  induction lines with
  | nil =>
    intro st st' _ hst h
    simp only [bucketLines, Option.some.injEq] at h
    exact h ▸ hst
  | cons line rest ih =>
    intro st st' hcl hst h
    have hrest : ∀ l ∈ rest, '\n' ∉ l :=
      fun l hl => hcl l (List.mem_cons_of_mem line hl)
    have hline : '\n' ∉ line := hcl line (List.mem_cons_self line rest)
    simp only [bucketLines] at h
    split at h
    · exact ih st st' hrest hst h
    · split at h
      · cases h
      · next i a e0 m heqp =>
        have hsp := parseLogLine_eq line i a e0 m heqp
        have he0m : e0 ∈ splitChar '\t' line := by
          rw [hsp]
          simp
        have he0 : '\t' ∉ e0 ∧ '\n' ∉ e0 := by
          refine ⟨not_mem_of_mem_splitChar '\t' line e0 he0m, ?_⟩
          intro hc
          exact hline (mem_of_mem_splitChar '\t' line e0 he0m '\n' hc)
        have hnew : ∀ e ∈ st.emails ++ [e0], '\t' ∉ e ∧ '\n' ∉ e := by
          intro e he
          rcases List.mem_append.mp he with h1 | h1
          · exact hst e h1
          · rw [List.mem_singleton] at h1
            exact h1 ▸ he0
        split at h
        · exact ih ⟨st.feats ++ entryOf (Commit.mk i m dirname).format, st.fixes,
              st.misc, st.emails ++ [e0]⟩ st' hrest hnew h
        · split at h
          · exact ih ⟨st.feats, st.fixes ++ entryOf (Commit.mk i m dirname).format,
                st.misc, st.emails ++ [e0]⟩ st' hrest hnew h
          · split at h
            · exact ih ⟨st.feats, st.fixes,
                  st.misc ++ entryOf (Commit.mk i m dirname).format,
                  st.emails ++ [e0]⟩ st' hrest hnew h
            · exact ih ⟨st.feats, st.fixes, st.misc, st.emails ++ [e0]⟩ st'
                hrest hnew h

/-- The contributor emails accumulated by `summary_repo` are tab- and
newline-free; this justifies the cleanliness hypothesis of the C7 theorem for
the emails the program actually feeds to `get_all_contributors`. -/
theorem summary_repo_emails_clean (dirname bundle : Str) (fs : List Str)
    (res : RepoSummary) (h : summary_repo dirname bundle fs = some res) :
    ∀ e ∈ res.emails, '\t' ∉ e ∧ '\n' ∉ e := by
  unfold summary_repo at h
  split at h
  · cases h
  · next st heq =>
    rw [Option.some.injEq] at h
    have hres := bucketLines_emails_clean dirname fs (splitChar '\n' bundle)
      ⟨[], [], [], []⟩ st (not_mem_of_mem_splitChar '\n' bundle) (by simp) heq
    rw [← h]
    exact hres

end Changelog
